import Mathlib

/-!
Verification development for the FUTO_CAMPUS_MEDIA blog backend.

Python strings are modelled as `List Char`.  The image-reference
normalizer `_normalize_candidate` (blog/serializers.py), the repair
command `fix_and_migrate_images` (blog/management/commands/), and the
view actions (blog/views.py) are shallowly embedded below; stateful
code is modelled by explicit state passing and collaborators (storage,
Cloudinary uploader, filesystem) by explicit environment records.
-/

namespace FutoMedia

/-! ### Basic character helpers -/

def isWs (c : Char) : Bool := c.isWhitespace

/-- Characters that terminate the authority component in `urlsplit`
    (`'/'`, `'?'`, `'#'`). -/
def notDelim (c : Char) : Bool := c ≠ '/' && c ≠ '?' && c ≠ '#'

/-- `urllib.parse.urlsplit` removes `'\t'`, `'\r'`, `'\n'` from its input. -/
def isUnsafeChar (c : Char) : Bool := c = '\t' || c = '\r' || c = '\n'

def removeUnsafe (l : List Char) : List Char := l.filter (fun c => !isUnsafeChar c)

/-- Number of non-overlapping occurrences of the substring `"http"`,
    as computed by Python's `str.count("http")`. -/
def countHttp : List Char → Nat
  | 'h' :: 't' :: 't' :: 'p' :: r => countHttp r + 1
  | _ :: r => countHttp r
  | [] => 0

/-- The suffix of `l` starting at the last occurrence of `"http"`
    (Python `l[l.rfind("http"):]`), or `none` when `"http"` does not occur. -/
def suffixFromLastHttp : List Char → Option (List Char)
  | 'h' :: 't' :: 't' :: 'p' :: r =>
    match suffixFromLastHttp r with
    | some s => some s
    | none => some ('h' :: 't' :: 't' :: 'p' :: r)
  | _ :: r => suffixFromLastHttp r
  | [] => none

/-- Python's `pat in l` substring test. -/
def isSubstr (pat : List Char) : List Char → Bool
  | [] => pat.isPrefixOf []
  | c :: r => pat.isPrefixOf (c :: r) || isSubstr pat r

def isHexC (c : Char) : Bool :=
  c.isDigit || ('a' ≤ c && c ≤ 'f') || ('A' ≤ c && c ≤ 'F')

def hexVal (c : Char) : Nat :=
  if c.isDigit then c.toNat - '0'.toNat
  else if 'a' ≤ c && c ≤ 'f' then c.toNat - 'a'.toNat + 10
  else c.toNat - 'A'.toNat + 10

/-- One pass of `urllib.parse.unquote`: each valid `%XX` escape is replaced
    by the character with code `XX`; invalid escapes are left untouched.
    (Python decodes escaped byte sequences as UTF-8 with replacement; the
    model decodes byte-per-byte, which agrees with Python on all escapes
    of ASCII bytes — the only ones this repository's data contains.) -/
def unquoteOnce : List Char → List Char
  | '%' :: a :: b :: r =>
    if isHexC a && isHexC b then Char.ofNat (hexVal a * 16 + hexVal b) :: unquoteOnce r
    else '%' :: unquoteOnce (a :: b :: r)
  | c :: r => c :: unquoteOnce r
  | [] => []

/-- The bounded decode loop of `_normalize_candidate` (serializers.py 28-38):
    up to `n` passes, stopping when no `'%'` is present or a pass is a no-op.
    (`unquote` on a `str` never raises, so the `except` arm is dead.) -/
def unquoteLoop : Nat → List Char → List Char
  | 0, v => v
  | n + 1, v =>
    if v.contains '%' then
      let v2 := unquoteOnce v
      if v2 = v then v else unquoteLoop n v2
    else v

def lstripWs (l : List Char) : List Char := l.dropWhile isWs

/-- Python `str.strip()` (whitespace at both ends). -/
def stripWs (l : List Char) : List Char := ((lstripWs l).reverse.dropWhile isWs).reverse

def lstripSlash (l : List Char) : List Char := l.dropWhile (fun c => c = '/')

/-! ### Model of `urllib.parse.urlsplit` / `urlunsplit` -/

def schemeChar (c : Char) : Bool := c.isAlphanum || c = '+' || c = '-' || c = '.'

/-- The scheme-detection step of `urlsplit`: split at the first `':'` when
    everything before it is a well-formed scheme. -/
def splitScheme (l : List Char) : List Char × List Char :=
  match l.findIdx? (fun c => c = ':') with
  | some i =>
    if 0 < i then
      match l.head? with
      | some c0 =>
        if c0.toNat < 128 && c0.isAlpha && ((l.take i).drop 1).all schemeChar then
          ((l.take i).map Char.toLower, l.drop (i + 1))
        else ([], l)
      | none => ([], l)
    else ([], l)
  | none => ([], l)

structure UrlParts where
  scheme : List Char
  netloc : List Char
  path : List Char
  query : List Char
  fragment : List Char
deriving DecidableEq, Repr

/-- Authority check of `urlsplit`.  CPython raises `ValueError` when the
    netloc has a mismatched `'['`/`']'`, validates a bracketed host as an
    IP literal (raising when invalid), and raises on some non-ASCII
    netlocs (`_checknetloc`).  The model is conservative: any bracket or
    non-ASCII character in the netloc is treated as the error case.  On
    bracket-free ASCII authorities — everything this repository stores —
    the model agrees exactly with CPython. -/
def netlocOk (n : List Char) : Bool := n.all (fun c => c ≠ '[' && c ≠ ']' && c.toNat < 128)

/-- `urllib.parse.urlsplit`, as an `Except` to model the escaping
    `ValueError`. -/
def urlsplit (l : List Char) : Except Unit UrlParts :=
  let l2 := removeUnsafe l
  let sr := splitScheme l2
  let netloc := if sr.2.take 2 = "//".toList then (sr.2.drop 2).takeWhile notDelim else []
  let rest := if sr.2.take 2 = "//".toList then (sr.2.drop 2).dropWhile notDelim else sr.2
  if netlocOk netloc then
    let frag := if rest.contains '#' then (rest.dropWhile (fun c => c ≠ '#')).drop 1 else []
    let rest2 := if rest.contains '#' then rest.takeWhile (fun c => c ≠ '#') else rest
    let query := if rest2.contains '?' then (rest2.dropWhile (fun c => c ≠ '?')).drop 1 else []
    let path := if rest2.contains '?' then rest2.takeWhile (fun c => c ≠ '?') else rest2
    .ok ⟨sr.1, netloc, path, query, frag⟩
  else .error ()

/-- The authority substring that `urlsplit` validates on input `v`. -/
def rawNetloc (v : List Char) : List Char :=
  let l2 := removeUnsafe v
  let sr := splitScheme l2
  if sr.2.take 2 = "//".toList then (sr.2.drop 2).takeWhile notDelim else []

/-- `urllib.parse.urlunsplit`. -/
def urlunsplit (p : UrlParts) : List Char :=
  let url := p.path
  let url :=
    if p.netloc ≠ [] ∨ (url ≠ [] ∧ url.take 2 = "//".toList) then
      let url2 := if url ≠ [] ∧ url.take 1 ≠ "/".toList then '/' :: url else url
      "//".toList ++ p.netloc ++ url2
    else url
  let url := if p.scheme ≠ [] then p.scheme ++ ':' :: url else url
  let url := if p.query ≠ [] then url ++ '?' :: p.query else url
  if p.fragment ≠ [] then url ++ '#' :: p.fragment else url

/-! ### The normalizer `_normalize_candidate` (serializers.py 6-101) -/

/-- Python `path.split("/")`. -/
def splitSlash : List Char → List (List Char)
  | [] => [[]]
  | '/' :: r => [] :: splitSlash r
  | c :: r =>
    match splitSlash r with
    | s :: ss => (c :: s) :: ss
    | [] => [[c]]

/-- Python `"/".join(comps)`. -/
def joinSlash : List (List Char) → List Char
  | [] => []
  | [x] => x
  | x :: xs => x ++ '/' :: joinSlash xs

/-- The Cloudinary-specific path repair (serializers.py 69-91): on a
    `res.cloudinary.com` host, keep the path from its last `"http"` if it
    contains one, then if `"/image/upload"` is absent insert it after the
    first path component when that component is nonempty. -/
def cloudRepair (netloc path : List Char) : List Char :=
  let host := netloc.map Char.toLower
  if isSubstr "res.cloudinary.com".toList host then
    let path :=
      match suffixFromLastHttp path with
      | some s => s
      | none => path
    if isSubstr "/image/upload".toList path then path
    else
      match splitSlash path with
      | _ :: cloudName :: restComps =>
        if cloudName ≠ [] then
          let rest := joinSlash restComps
          if rest ≠ [] then '/' :: cloudName ++ "/image/upload/".toList ++ rest
          else '/' :: cloudName ++ "/image/upload".toList
        else path
      | _ => path
  else path

/-- Dedup step (serializers.py 22-25): when `"http"` occurs more than
    once, keep everything from the last occurrence. -/
def dedupHttp (l : List Char) : List Char :=
  if countHttp l > 1 then
    match suffixFromLastHttp l with
    | some s => s
    | none => l
  else l

/-- Malformed single-slash scheme repair (serializers.py 47-51). -/
def schemeRepair (v : List Char) : List Char :=
  let v :=
    if "http:/".toList.isPrefixOf v ∧ ¬ "http://".toList.isPrefixOf v then
      "http://".toList ++ v.drop 6
    else v
  if "https:/".toList.isPrefixOf v ∧ ¬ "https://".toList.isPrefixOf v then
    "https://".toList ++ v.drop 7
  else v

def isAbs (v : List Char) : Bool :=
  "http://".toList.isPrefixOf v || "https://".toList.isPrefixOf v

/-- Serializers.py 53-57: when still not absolute but `"http"` occurs,
    keep the suffix from the last occurrence. -/
def lastHttpFix (v : List Char) : List Char :=
  if ¬ isAbs v ∧ isSubstr "http".toList v then
    match suffixFromLastHttp v with
    | some s => s
    | none => v
  else v

/-- Characters allowed in an authority component that `urlsplit` parses
    back unchanged (no delimiter, bracket, non-ASCII or unsafe char). -/
def netChar (c : Char) : Bool :=
  notDelim c && !isUnsafeChar c && c ≠ '[' && c ≠ ']' && decide (c.toNat < 128)

/-- Characters a path component may contain and still be parsed back
    unchanged. -/
def pathChar (c : Char) : Bool := c ≠ '?' && c ≠ '#' && !isUnsafeChar c

/-- Characters a query component may contain and still be parsed back
    unchanged. -/
def queryChar (c : Char) : Bool := c ≠ '#' && !isUnsafeChar c

/-- Characters a fragment component may contain and still be parsed back
    unchanged. -/
def fragChar (c : Char) : Bool := !isUnsafeChar c

/-- Plain URL-path characters: no percent escape, no query/fragment
    delimiter, no whitespace, no unsafe char. -/
def plainChar (c : Char) : Bool :=
  !(c = '%' || c = '?' || c = '#' || isUnsafeChar c || c.isWhitespace)

/-- All the pure string munging of `_normalize_candidate` before the URL
    is parsed (serializers.py 20-57). -/
def preprocess (cand : List Char) : List Char :=
  let v := stripWs cand
  let v := dedupHttp v
  let v := unquoteLoop 3 v
  let v := lstripSlash (lstripWs v)
  let v := if "media/".toList.isPrefixOf v then v.drop 6 else v
  let v := schemeRepair v
  lastHttpFix v

/-- `_normalize_candidate` (serializers.py 6-101).  Returns
    `.ok (some url)` / `.ok none` for a normal return of a URL / `None`,
    and `.error ()` when the unguarded `urlsplit` call raises.
    (`urlunsplit` never raises, so its `try` arm always succeeds.) -/
def normalize_candidate (cand : List Char) : Except Unit (Option (List Char)) :=
  if cand = [] then .ok none
  else
    let v := preprocess cand
    if isAbs v then
      match urlsplit v with
      | .error e => .error e
      | .ok parts =>
        let scheme := if parts.scheme = "http".toList then "https".toList else parts.scheme
        let path := cloudRepair parts.netloc parts.path
        .ok (some (urlunsplit ⟨scheme, parts.netloc, path, parts.query, parts.fragment⟩))
    else .ok none

/-! ### The repair command `fix_and_migrate_images` (management/commands) -/

/-- Result of `cloudinary.uploader.upload`: a response dict that may or
    may not contain `secure_url`, or a raised exception. -/
inductive UploadOutcome
  | ok (secureUrl : Option (List Char))
  | exc
deriving DecidableEq

/-- Collaborators of the command: storage URL resolution for a stored
    value (`post.image.url`, the empty string when it raises — see the
    `try` at lines 21-24), the local filesystem, the uploader, and
    `settings.MEDIA_ROOT`. -/
structure CmdEnv where
  urlOf : List Char → List Char
  fileExistsAt : List Char → Bool
  upload : List Char → UploadOutcome
  mediaRoot : List Char

inductive Outcome
  | migrated | fixed | skipped | errors
deriving DecidableEq, Repr

/-- Suffix after the first occurrence of `pat` (Python
    `l[l.find(pat) + len(pat):]`), `none` when `pat` does not occur. -/
def afterFirst (pat : List Char) : List Char → Option (List Char)
  | [] => if pat.isPrefixOf [] then some [] else none
  | c :: r =>
    if pat.isPrefixOf (c :: r) then some ((c :: r).drop pat.length)
    else afterFirst pat r

/-- POSIX `os.path.join` on two components. -/
def pathJoin (a b : List Char) : List Char :=
  if b.take 1 = "/".toList then b
  else if a = [] ∨ a.getLast? = some '/' then a ++ b
  else a ++ '/' :: b

/-- Branch (2) of the command (lines 41-55): one `unquote` pass, strip
    leading slashes, strip a leading `media/`. -/
def decodeStep (url : List Char) : List Char :=
  let d := lstripSlash (unquoteOnce url)
  if "media/".toList.isPrefixOf d then d.drop 6 else d

/-- Upload a local file and store `secure_url` on success (lines 67-78 and
    113-129).  An uploader exception in branch (3) is caught by the outer
    per-record handler, in branch (4) by the inner one; both count as
    `errors` and leave the stored value unchanged. -/
def uploadAndSet (env : CmdEnv) (name localPath : List Char) : List Char × Option Outcome :=
  match env.upload localPath with
  | .ok (some secure) => (secure, some .migrated)
  | .ok none => (name, some .errors)
  | .exc => (name, some .errors)

/-- One iteration of the loop in `Command.handle`
    (fix_and_migrate_images.py 17-141): the record's new stored value and
    which counter (if any) is incremented. -/
def processRecord (env : CmdEnv) (name : List Char) : List Char × Option Outcome :=
  let url := env.urlOf name
  -- (1) `url` is an absolute Cloudinary URL (lines 29-38)
  if isAbs url ∧ isSubstr "res.cloudinary.com".toList url then
    if name ≠ url then (url, some .fixed) else (name, none)
  else
    -- (2) `url` contains an encoded / media-prefixed scheme (lines 41-55)
    let dec? :=
      if isSubstr "https%3A".toList url ∨ isSubstr "http%253A".toList url ∨
          isSubstr "/media/https:".toList url ∨ isSubstr "/media/http:".toList url then
        let d := decodeStep url
        if isAbs d then some d else none
      else none
    match dec? with
    | some d => (d, some .migrated)
    | none =>
      -- (3) `url` absolute but not Cloudinary (lines 58-88)
      if isAbs url then
        match afterFirst "/media/".toList url with
        | some rel =>
          let localPath := pathJoin env.mediaRoot rel
          if env.fileExistsAt localPath then uploadAndSet env name localPath
          else (name, some .skipped)
        | none => (name, some .skipped)
      -- (4) stored name present (lines 91-133)
      else if name ≠ [] then
        if isAbs name then
          if isSubstr "res.cloudinary.com".toList name then (name, some .fixed)
          else
            let localPath :=
              match afterFirst "/media/".toList name with
              | some rel => pathJoin env.mediaRoot rel
              | none => pathJoin env.mediaRoot name
            if env.fileExistsAt localPath then uploadAndSet env name localPath
            else (name, some .skipped)
        else
          let localPath := pathJoin env.mediaRoot name
          if env.fileExistsAt localPath then uploadAndSet env name localPath
          else (name, some .skipped)
      -- (5) nothing usable (lines 135-137)
      else (name, some .skipped)

structure Counters where
  migrated : Nat
  fixed : Nat
  skipped : Nat
  errors : Nat
deriving DecidableEq, Repr

def bump (c : Counters) : Option Outcome → Counters
  | some .migrated => { c with migrated := c.migrated + 1 }
  | some .fixed => { c with fixed := c.fixed + 1 }
  | some .skipped => { c with skipped := c.skipped + 1 }
  | some .errors => { c with errors := c.errors + 1 }
  | none => c

def runFixFrom (env : CmdEnv) (c : Counters) : List (List Char) → List (List Char) × Counters
  | [] => ([], c)
  | name :: rest =>
    let pr := processRecord env name
    let r2 := runFixFrom env (bump c pr.2) rest
    (pr.1 :: r2.1, r2.2)

/-- `Command.handle` over a corpus of stored image values: final stored
    values and the four counters printed at line 143. -/
def runFix (env : CmdEnv) (names : List (List Char)) : List (List Char) × Counters :=
  runFixFrom env ⟨0, 0, 0, 0⟩ names

/-! ### Views: like toggle (views.py 180-192) -/

structure LikeRow where
  postId : Nat
  visitorId : List Char
deriving DecidableEq, Repr

def countLikes (db : List LikeRow) (p : Nat) : Nat :=
  (db.filter (fun r => r.postId = p)).length

/-- Python `a or b` on a possibly-missing, possibly-empty string. -/
def pyOr (a : Option (List Char)) (b : List Char) : List Char :=
  match a with
  | some v => if v ≠ [] then v else b
  | none => b

/-- `visitor_id = request.data.get("visitor_id") or request.META.get("REMOTE_ADDR") or str(post.id)`. -/
def resolveVisitor (dataVisitor remoteAddr : Option (List Char)) (postId : Nat) : List Char :=
  pyOr dataVisitor (pyOr remoteAddr (Nat.repr postId).toList)

structure LikeResp where
  likesCount : Nat
  liked : Bool
deriving DecidableEq, Repr

/-- The row filter `Like.objects.filter(post=post, visitor_id=visitor_id)`. -/
def likeMatch (p : Nat) (vid : List Char) (r : LikeRow) : Bool :=
  r.postId = p ∧ r.visitorId = vid

/-- `PostViewSet.like` (views.py 180-192). -/
def likeAction (db : List LikeRow) (postId : Nat)
    (dataVisitor remoteAddr : Option (List Char)) : List LikeRow × LikeResp :=
  let vid := resolveVisitor dataVisitor remoteAddr postId
  if db.filter (likeMatch postId vid) ≠ [] then
    let db2 := db.filter (fun r => !likeMatch postId vid r)
    (db2, ⟨countLikes db2 postId, false⟩)
  else
    let db2 := db ++ [⟨postId, vid⟩]
    (db2, ⟨countLikes db2 postId, true⟩)

/-! ### Views: post create / update (views.py 65-159) -/

structure PostRow where
  id : Nat
  title : List Char
  content : List Char
  image : Option (List Char)
  slug : List Char
deriving DecidableEq, Repr

/-- Result of `cloudinary.uploader.upload` on a remote URL: a response
    dict that may lack `public_id`, or a raised exception. -/
inductive RemoteUpload
  | ok (publicId : Option (List Char))
  | exc
deriving DecidableEq

structure ViewEnv where
  cloudinaryAvailable : Bool
  upload : List Char → RemoteUpload

/-- `PostViewSet._upload_remote_to_cloudinary` (views.py 65-85): raises
    when Cloudinary is unavailable, when the uploader raises, and when
    the response has no `public_id`. -/
def upload_remote_to_cloudinary (env : ViewEnv) (url : List Char) : Except Unit (List Char) :=
  if ¬ env.cloudinaryAvailable then .error ()
  else
    match env.upload url with
    | .exc => .error ()
    | .ok none => .error ()
    | .ok (some pid) => .ok pid

structure CreateReq where
  imageUrl : Option (List Char)
  file : Option (List Char)
  bodyValid : Bool
  title : List Char
  content : List Char
deriving DecidableEq

structure HttpResp where
  status : Nat
  errorField : Option (List Char)
deriving DecidableEq, Repr

/-- `PostViewSet.create` (views.py 87-124).  `bodyValid` stands for the
    outcome of `PostCreateSerializer.is_valid` on the non-image fields;
    `newId`/`newSlug` are the values the persistence layer assigns. -/
def createPost (env : ViewEnv) (db : List PostRow) (req : CreateReq)
    (newId : Nat) (newSlug : List Char) : List PostRow × HttpResp :=
  let imageUrl :=
    match req.imageUrl with
    | some u => if u ≠ [] then some u else none
    | none => none
  match imageUrl with
  | some u =>
    if ¬ env.cloudinaryAvailable then (db, ⟨400, some "image_url".toList⟩)
    else
      match upload_remote_to_cloudinary env u with
      | .error _ => (db, ⟨400, some "image_url".toList⟩)
      | .ok pid =>
        if req.bodyValid then
          (db ++ [⟨newId, req.title, req.content, some pid, newSlug⟩], ⟨201, none⟩)
        else (db, ⟨400, none⟩)
  | none =>
    if req.bodyValid then
      (db ++ [⟨newId, req.title, req.content, req.file, newSlug⟩], ⟨201, none⟩)
    else (db, ⟨400, none⟩)

/-- `PostViewSet.update` (views.py 126-159). -/
def updatePost (env : ViewEnv) (db : List PostRow) (targetId : Nat)
    (req : CreateReq) : List PostRow × HttpResp :=
  let imageUrl :=
    match req.imageUrl with
    | some u => if u ≠ [] then some u else none
    | none => none
  match imageUrl with
  | some u =>
    if ¬ env.cloudinaryAvailable then (db, ⟨400, some "image_url".toList⟩)
    else
      match upload_remote_to_cloudinary env u with
      | .error _ => (db, ⟨400, some "image_url".toList⟩)
      | .ok pid =>
        if req.bodyValid then
          (db.map (fun r =>
            if r.id = targetId then
              { r with title := req.title, content := req.content, image := some pid }
            else r), ⟨200, none⟩)
        else (db, ⟨400, none⟩)
  | none =>
    if req.bodyValid then
      (db.map (fun r =>
        if r.id = targetId then
          { r with title := req.title, content := req.content,
                   image := match req.file with | some f => some f | none => r.image }
        else r), ⟨200, none⟩)
    else (db, ⟨400, none⟩)

/-! ### Views: comments (views.py 161-178, serializers.py 104-115, 196-198) -/

structure CommentRow where
  id : Nat
  postId : Nat
  parentId : Option Nat
  name : List Char
  content : List Char
  createdAt : Nat
  isActive : Bool
deriving DecidableEq, Repr

structure CommentReq where
  parent : Option Nat
  fieldsValid : Bool
  name : List Char
  content : List Char
  isActive : Bool
deriving DecidableEq

/-- `PostViewSet.comments`, POST branch (views.py 170-178).  The
    serializer's `parent` is a `PrimaryKeyRelatedField` over all comments
    (serializers.py 105), so validation resolves the supplied id against
    the whole comment table; the view then rejects a parent belonging to
    another post before saving. -/
def commentsPost (db : List CommentRow) (postId : Nat) (req : CommentReq)
    (newId : Nat) (now : Nat) : List CommentRow × HttpResp :=
  let parentRow : Option CommentRow :=
    match req.parent with
    | some pid => db.find? (fun c => c.id = pid)
    | none => none
  if req.fieldsValid ∧ (req.parent = none ∨ parentRow.isSome) then
    match parentRow with
    | some par =>
      if par.postId ≠ postId then (db, ⟨400, some "parent".toList⟩)
      else
        (db ++ [⟨newId, postId, req.parent, req.name, req.content, now, req.isActive⟩],
          ⟨201, none⟩)
    | none =>
      (db ++ [⟨newId, postId, req.parent, req.name, req.content, now, req.isActive⟩],
        ⟨201, none⟩)
  else (db, ⟨400, none⟩)

/-- `obj.replies.filter(is_active=True)` (serializers.py 114). -/
def repliesOf (db : List CommentRow) (c : CommentRow) : List CommentRow :=
  db.filter (fun r => r.parentId = some c.id ∧ r.isActive)

def insertByCreated (c : CommentRow) : List CommentRow → List CommentRow
  | [] => [c]
  | d :: ds => if c.createdAt < d.createdAt then c :: d :: ds else d :: insertByCreated c ds

/-- `order_by("created_at")`. -/
def sortByCreated (l : List CommentRow) : List CommentRow := l.foldr insertByCreated []

/-- `post.comments.filter(parent__isnull=True, is_active=True).order_by("created_at")`
    (views.py 166, serializers.py 197). -/
def topLevel (db : List CommentRow) (postId : Nat) : List CommentRow :=
  sortByCreated (db.filter (fun c => c.postId = postId ∧ c.parentId = none ∧ c.isActive))

/-- The comments serialized under `c` by the recursive `CommentSerializer`
    (serializers.py 104-115), flattened; `fuel` bounds the recursion
    depth (Python's recursion is unbounded, and every finite response it
    produces is covered by some fuel). -/
def renderComment (db : List CommentRow) : Nat → CommentRow → List CommentRow
  | 0, c => [c]
  | fuel + 1, c => c :: (sortByCreated (repliesOf db c)).flatMap (renderComment db fuel)

/-- All comments appearing in the comments GET response / the post detail
    response for `postId`. -/
def renderedComments (db : List CommentRow) (postId fuel : Nat) : List CommentRow :=
  (topLevel db postId).flatMap (renderComment db fuel)

/-! ## Supporting lemmas -/

/-- Invariant: every stored reply's parent (resolved by id) belongs to the
    same post as the reply. -/
def commentInv (db : List CommentRow) : Prop :=
  ∀ r ∈ db, ∀ pid, r.parentId = some pid → ∀ par ∈ db, par.id = pid → par.postId = r.postId

/-- A comment is active and reachable from an active top-level comment
    through a chain of active stored parents. -/
inductive ChainActive (db : List CommentRow) : CommentRow → Prop
  | top (c : CommentRow) : c.isActive = true → c.parentId = none → ChainActive db c
  | reply (c par : CommentRow) : ChainActive db par → par ∈ db →
      c.parentId = some par.id → c.isActive = true → ChainActive db c

/-- A concrete command environment: storage resolves any stored value to
    itself (as the Cloudinary SDK does for stored absolute URLs), no
    local file exists, every upload raises. -/
def idEnv : CmdEnv := ⟨fun n => n, fun _ => false, fun _ => .exc, "/app/media".toList⟩

/-- A record in the state a successful first repair run leaves it:
    the stored value is an absolute Cloudinary URL and storage resolves
    it to itself. -/
def alreadyCanonical (env : CmdEnv) (name : List Char) : Prop :=
  env.urlOf name = name ∧ isAbs name = true ∧
    isSubstr "res.cloudinary.com".toList name = true

/-! ### Sanity evaluations of the normalizer model -/

example : normalize_candidate "".toList = .ok none := rfl

example :
    normalize_candidate "http://res.cloudinary.com/demo/image/upload/x.jpg".toList =
      .ok (some "https://res.cloudinary.com/demo/image/upload/x.jpg".toList) := rfl

example :
    normalize_candidate "https://res.cloudinary.com/tenant/posts/abc.jpg".toList =
      .ok (some "https://res.cloudinary.com/tenant/image/upload/posts/abc.jpg".toList) := rfl

example :
    normalize_candidate "/media/https://res.cloudinary.com/tenant/image/upload/x.jpg".toList =
      .ok (some "https://res.cloudinary.com/tenant/image/upload/x.jpg".toList) := rfl

example : normalize_candidate "http://[".toList = .error () := rfl

example : normalize_candidate "http://".toList = .ok (some "https:".toList) := rfl

example : normalize_candidate "https:".toList = .ok none := rfl

example :
    normalize_candidate "https%3A%2F%2Fres.cloudinary.com%2Fdemo%2Fimage%2Fupload%2Fx.jpg".toList =
      .ok (some "https://res.cloudinary.com/demo/image/upload/x.jpg".toList) := rfl

theorem commentInv_append (db : List CommentRow) (row : CommentRow)
    (hfresh : ∀ r ∈ db, r.id ≠ row.id)
    (hfk : ∀ r ∈ db, ∀ pid, r.parentId = some pid → ∃ par, par ∈ db ∧ par.id = pid)
    (hinv : commentInv db)
    (hrow : ∀ pid, row.parentId = some pid → pid ≠ row.id ∧
        ∀ par ∈ db, par.id = pid → par.postId = row.postId) :
    commentInv (db ++ [row]) := by
  intro r hr pid hpid par hpar hid
  rcases List.mem_append.1 hr with hr | hr
  · rcases List.mem_append.1 hpar with hpar | hpar
    · exact hinv r hr pid hpid par hpar hid
    · have hpr : par = row := by simpa using hpar
      obtain ⟨par2, hpar2, hid2⟩ := hfk r hr pid hpid
      have hcontra : par2.id = row.id := by rw [hid2, ← hid, hpr]
      exact absurd hcontra (hfresh par2 hpar2)
  · have hrr : r = row := by simpa using hr
    obtain ⟨hne, hpost⟩ := hrow pid (hrr ▸ hpid)
    rcases List.mem_append.1 hpar with hpar | hpar
    · rw [hrr]
      exact hpost par hpar hid
    · have hpr : par = row := by simpa using hpar
      exact absurd (by rw [← hpr, hid]) hne

theorem ChainActive.active {db : List CommentRow} {c : CommentRow}
    (h : ChainActive db c) : c.isActive = true := by
  cases h with
  | top _ ha _ => exact ha
  | reply _ _ _ _ _ ha => exact ha

theorem mem_insertByCreated {c x : CommentRow} {l : List CommentRow} :
    x ∈ insertByCreated c l ↔ x = c ∨ x ∈ l := by
  induction l with
  | nil => simp [insertByCreated]
  | cons d ds ih =>
    by_cases h : c.createdAt < d.createdAt
    · simp [insertByCreated, h]
    · simp [insertByCreated, h, ih, or_left_comm]

theorem mem_sortByCreated {x : CommentRow} {l : List CommentRow} :
    x ∈ sortByCreated l ↔ x ∈ l := by
  induction l with
  | nil => simp [sortByCreated]
  | cons d ds ih =>
    simp only [sortByCreated, List.foldr_cons] at *
    rw [mem_insertByCreated, ih, List.mem_cons]

theorem chainActive_of_mem_renderComment (db : List CommentRow) :
    ∀ (fuel : Nat) (root c : CommentRow), root ∈ db → ChainActive db root →
      c ∈ renderComment db fuel root → ChainActive db c := by
  intro fuel
  induction fuel with
  | zero =>
    intro root c _ hca hc
    simp only [renderComment, List.mem_singleton] at hc
    exact hc ▸ hca
  | succ n ih =>
    intro root c hroot hca hc
    simp only [renderComment, List.mem_cons, List.mem_flatMap] at hc
    rcases hc with rfl | ⟨r, hr, hcr⟩
    · exact hca
    · rw [mem_sortByCreated] at hr
      rw [repliesOf, List.mem_filter] at hr
      obtain ⟨hrdb, hcond⟩ := hr
      have hcond2 : r.parentId = some root.id ∧ r.isActive = true := by
        simpa using hcond
      exact ih r c hrdb (ChainActive.reply r root hca hroot hcond2.1 hcond2.2) hcr

/-! ## Claim theorems -/

/-- C10: on both read paths (post detail's nested comments and the
    comments GET endpoint, which serialize exactly `renderedComments`) a
    comment appears in the response only if it is active and every stored
    ancestor in its parent chain is active; in particular, under
    primary-key uniqueness of comment ids, an active reply whose parent
    is inactive is never returned, so inactive top-level comments are
    omitted together with their reply subtrees. -/
theorem C10_inactive_parent_hides_replies (db : List CommentRow) (postId fuel : Nat) :
    (∀ c ∈ renderedComments db postId fuel, ChainActive db c ∧ c.isActive = true) ∧
    (∀ c par, par ∈ db → c.parentId = some par.id → par.isActive = false →
      (∀ a ∈ db, ∀ b ∈ db, a.id = b.id → a = b) →
      c ∉ renderedComments db postId fuel) := by
  have main : ∀ c ∈ renderedComments db postId fuel, ChainActive db c := by
    intro c hc
    simp only [renderedComments, List.mem_flatMap] at hc
    obtain ⟨root, hroot, hc⟩ := hc
    rw [topLevel, mem_sortByCreated, List.mem_filter] at hroot
    obtain ⟨hrdb, hcond⟩ := hroot
    have hcond2 : root.postId = postId ∧ root.parentId = none ∧ root.isActive = true := by
      simpa using hcond
    exact chainActive_of_mem_renderComment db fuel root c hrdb
      (ChainActive.top root hcond2.2.2 hcond2.2.1) hc
  refine ⟨fun c hc => ⟨main c hc, (main c hc).active⟩, ?_⟩
  intro c par hpar hcp hpact hpk hmem
  have hca := main c hmem
  cases hca with
  | top _ _ hnone => rw [hcp] at hnone; cases hnone
  | reply _ par2 hca2 hpar2 hcp2 _ =>
    rw [hcp] at hcp2
    have hid : par.id = par2.id := by injection hcp2
    have hpp : par = par2 := hpk par hpar par2 hpar2 hid
    rw [hpp] at hpact
    rw [hca2.active] at hpact
    cases hpact

/-- Witness for C10: an active reply under an inactive top-level comment
    is not rendered. -/
theorem C10_witness :
    (⟨2, 1, some 1, "b".toList, "y".toList, 1, true⟩ : CommentRow) ∉
      renderedComments
        [⟨1, 1, none, "a".toList, "x".toList, 0, false⟩,
         ⟨2, 1, some 1, "b".toList, "y".toList, 1, true⟩] 1 5 :=
  (C10_inactive_parent_hides_replies _ 1 5).2 _
    ⟨1, 1, none, "a".toList, "x".toList, 0, false⟩
    (by decide) rfl rfl (by decide)

/-- C9: the like endpoint toggles per (post, visitor) pair: when no like
    row exists for the pair, a POST appends one and reports liked with
    the count incremented by one; an immediately following POST with the
    same pair deletes it and reports unliked with the count back to the
    original; a third POST repeats the first.  The visitor identifier is
    the nonempty `visitor_id` field, else the nonempty remote address,
    else the decimal rendering of the post id. -/
theorem C9_like_toggle (db : List LikeRow) (p : Nat) (dv ra : Option (List Char))
    (hfresh : ∀ r ∈ db, ¬ (r.postId = p ∧ r.visitorId = resolveVisitor dv ra p)) :
    likeAction db p dv ra =
      (db ++ [⟨p, resolveVisitor dv ra p⟩], ⟨countLikes db p + 1, true⟩) ∧
    likeAction (db ++ [⟨p, resolveVisitor dv ra p⟩]) p dv ra =
      (db, ⟨countLikes db p, false⟩) ∧
    likeAction ((likeAction ((likeAction db p dv ra).1) p dv ra).1) p dv ra =
      likeAction db p dv ra ∧
    (∀ v, v ≠ [] → resolveVisitor (some v) ra p = v) ∧
    (∀ a, a ≠ [] → resolveVisitor none (some a) p = a) ∧
    resolveVisitor none none p = (Nat.repr p).toList := by
  have hnil : db.filter (likeMatch p (resolveVisitor dv ra p)) = [] := by
    rw [List.filter_eq_nil_iff]
    intro r hr
    simp only [likeMatch, decide_eq_true_eq]
    exact hfresh r hr
  have hself : db.filter (fun r => !likeMatch p (resolveVisitor dv ra p) r) = db := by
    rw [List.filter_eq_self]
    intro r hr
    simp only [likeMatch, Bool.not_eq_true', decide_eq_false_iff_not]
    exact hfresh r hr
  have hcount : countLikes (db ++ [(⟨p, resolveVisitor dv ra p⟩ : LikeRow)]) p =
      countLikes db p + 1 := by
    simp [countLikes, List.filter_append]
  have h1 : likeAction db p dv ra =
      (db ++ [(⟨p, resolveVisitor dv ra p⟩ : LikeRow)], ⟨countLikes db p + 1, true⟩) := by
    rw [likeAction]
    simp only [hnil]
    rw [if_neg (by simp)]
    rw [hcount]
  have hone : List.filter (likeMatch p (resolveVisitor dv ra p))
      [(⟨p, resolveVisitor dv ra p⟩ : LikeRow)] =
      [(⟨p, resolveVisitor dv ra p⟩ : LikeRow)] := by
    simp [likeMatch]
  have hnone : List.filter (fun r => !likeMatch p (resolveVisitor dv ra p) r)
      [(⟨p, resolveVisitor dv ra p⟩ : LikeRow)] = [] := by
    simp [likeMatch]
  have hfull : (db ++ [(⟨p, resolveVisitor dv ra p⟩ : LikeRow)]).filter
      (likeMatch p (resolveVisitor dv ra p)) =
      [(⟨p, resolveVisitor dv ra p⟩ : LikeRow)] := by
    rw [List.filter_append, hnil, hone]
    rfl
  have hdel : (db ++ [(⟨p, resolveVisitor dv ra p⟩ : LikeRow)]).filter
      (fun r => !likeMatch p (resolveVisitor dv ra p) r) = db := by
    rw [List.filter_append, hself, hnone, List.append_nil]
  have h2 : likeAction (db ++ [(⟨p, resolveVisitor dv ra p⟩ : LikeRow)]) p dv ra =
      (db, ⟨countLikes db p, false⟩) := by
    rw [likeAction]
    simp only [hfull, hdel]
    rw [if_pos (by simp)]
  have e1 : (likeAction db p dv ra).1 =
      db ++ [(⟨p, resolveVisitor dv ra p⟩ : LikeRow)] := by rw [h1]
  have e2 : (likeAction (db ++ [(⟨p, resolveVisitor dv ra p⟩ : LikeRow)]) p dv ra).1 =
      db := by rw [h2]
  refine ⟨h1, h2, ?_, ?_, ?_, rfl⟩
  · rw [e1, e2, h1]
  · intro v hv
    simp [resolveVisitor, pyOr, hv]
  · intro a ha
    simp [resolveVisitor, pyOr, ha]

/-- Witness for C9 at a concrete input. -/
theorem C9_witness :
    likeAction [] 7 (some "v".toList) none =
      ([⟨7, resolveVisitor (some "v".toList) none 7⟩], ⟨countLikes [] 7 + 1, true⟩) :=
  (C9_like_toggle [] 7 (some "v".toList) none
    (fun r hr => absurd hr (List.not_mem_nil r))).1

/-- C5: on post create or update, a nonempty remote `image_url` hint
    whose upload collaborator is unavailable, raises, or returns no
    identifier leads to a 400 response naming `image_url`, and the post
    table is unchanged — the failure is detected before any persistence. -/
theorem C5_remote_upload_failure (env : ViewEnv) (db : List PostRow) (req : CreateReq)
    (u : List Char) (tid newId : Nat) (newSlug : List Char)
    (hu : req.imageUrl = some u) (hne : u ≠ [])
    (hfail : env.cloudinaryAvailable = false ∨ env.upload u = .exc ∨
      env.upload u = .ok none) :
    createPost env db req newId newSlug = (db, ⟨400, some "image_url".toList⟩) ∧
    updatePost env db tid req = (db, ⟨400, some "image_url".toList⟩) := by
  have hup : env.cloudinaryAvailable = true →
      upload_remote_to_cloudinary env u = .error () := by
    intro hav
    rcases hfail with h | h | h
    · rw [hav] at h; cases h
    · simp [upload_remote_to_cloudinary, hav, h]
    · simp [upload_remote_to_cloudinary, hav, h]
  constructor
  · rw [createPost, hu]
    by_cases hav : env.cloudinaryAvailable
    · simp [hne, hav, hup hav]
    · simp [hne, hav]
  · rw [updatePost, hu]
    by_cases hav : env.cloudinaryAvailable
    · simp [hne, hav, hup hav]
    · simp [hne, hav]

/-- Witness for C5 at a concrete input. -/
theorem C5_witness :
    createPost ⟨false, fun _ => .exc⟩ [] ⟨some "http://x/a.jpg".toList, none, true, "t".toList, "c".toList⟩ 1 "t".toList =
      ([], ⟨400, some "image_url".toList⟩) :=
  (C5_remote_upload_failure ⟨false, fun _ => .exc⟩ [] _ "http://x/a.jpg".toList 0 1
    "t".toList rfl (by decide) (Or.inl rfl)).1

/-- C6: a POST to the comment sub-resource whose parent id names a
    comment of another post is rejected with a 400 (naming `parent` when
    the other fields validate) and creates no row; and under primary-key
    uniqueness, parent foreign-key integrity and freshness of the new id,
    the endpoint preserves the invariant that every stored reply's parent
    belongs to the same post. -/
theorem C6_comment_threading (db : List CommentRow) (postId : Nat) (req : CommentReq)
    (newId now : Nat)
    (hfresh : ∀ r ∈ db, r.id ≠ newId)
    (hfk : ∀ r ∈ db, ∀ pid, r.parentId = some pid → ∃ par, par ∈ db ∧ par.id = pid)
    (hpk : ∀ a ∈ db, ∀ b ∈ db, a.id = b.id → a = b)
    (hinv : commentInv db) :
    (∀ pid par, req.parent = some pid → db.find? (fun c => c.id = pid) = some par →
      par.postId ≠ postId →
      commentsPost db postId req newId now =
        (db, ⟨400, if req.fieldsValid then some "parent".toList else none⟩)) ∧
    commentInv (commentsPost db postId req newId now).1 := by
  constructor
  · intro pid par hp hf hpp
    by_cases hv : req.fieldsValid
    · simp [commentsPost, hp, hf, hv, hpp]
    · simp [commentsPost, hp, hf, hv]
  · rcases hparent : req.parent with _ | pid
    · by_cases hv : req.fieldsValid
      · have hres : (commentsPost db postId req newId now).1 =
            db ++ [⟨newId, postId, req.parent, req.name, req.content, now, req.isActive⟩] := by
          simp [commentsPost, hparent, hv]
        rw [hres]
        apply commentInv_append db _ hfresh hfk hinv
        intro pid2 hpid2
        rw [hparent] at hpid2
        cases hpid2
      · have hres : (commentsPost db postId req newId now).1 = db := by
          simp [commentsPost, hparent, hv]
        rw [hres]
        exact hinv
    · rcases hfind : db.find? (fun c => c.id = pid) with _ | par0
      · have hres : (commentsPost db postId req newId now).1 = db := by
          simp [commentsPost, hparent, hfind]
        rw [hres]
        exact hinv
      · have hpar0 : par0 ∈ db := List.mem_of_find?_eq_some hfind
        have hid0 : par0.id = pid := by
          have := List.find?_some hfind
          simpa using this
        by_cases hv : req.fieldsValid
        · by_cases hpp : par0.postId = postId
          · have hres : (commentsPost db postId req newId now).1 =
                db ++ [⟨newId, postId, req.parent, req.name, req.content, now, req.isActive⟩] := by
              simp [commentsPost, hparent, hfind, hv, hpp]
            rw [hres]
            apply commentInv_append db _ hfresh hfk hinv
            intro pid2 hpid2
            rw [hparent] at hpid2
            have hpe : pid = pid2 := by injection hpid2
            constructor
            · rw [← hpe, ← hid0]
              exact fun hcon => hfresh par0 hpar0 hcon
            · intro par hpar hidp
              have hsame : par = par0 := hpk par hpar par0 hpar0 (by rw [hidp, ← hpe, hid0])
              rw [hsame]
              exact hpp
          · have hres : (commentsPost db postId req newId now).1 = db := by
              simp [commentsPost, hparent, hfind, hv, hpp]
            rw [hres]
            exact hinv
        · have hres : (commentsPost db postId req newId now).1 = db := by
            simp [commentsPost, hparent, hv]
          rw [hres]
          exact hinv

/-- Witness for C6 at a concrete input: a reply to a comment of another
    post is rejected and the table is unchanged. -/
theorem C6_witness :
    commentsPost [⟨1, 2, none, "a".toList, "x".toList, 0, true⟩] 1
      ⟨some 1, true, "b".toList, "y".toList, true⟩ 5 9 =
      ([⟨1, 2, none, "a".toList, "x".toList, 0, true⟩], ⟨400, some "parent".toList⟩) := by
  have h := (C6_comment_threading [⟨1, 2, none, "a".toList, "x".toList, 0, true⟩] 1
    ⟨some 1, true, "b".toList, "y".toList, true⟩ 5 9
    (by decide) (by decide) (by decide)
    (by intro r hr pid hpid par hpar hidp; simp at hr; rw [hr] at hpid; cases hpid)).1
    1 ⟨1, 2, none, "a".toList, "x".toList, 0, true⟩ rfl rfl (by decide)
  simpa using h

/-- C1: evaluation of the repair sweep at a two-record corpus.  The first
    record is already canonical (`name = url`, Cloudinary URL): it falls
    into the `"Already Cloudinary, nothing to do"` arm (line 37), which
    increments no counter, so migrated + fixed + skipped + errors = 1 ≠ 2
    records processed.  The second record has a percent-encoded stored
    URL: it is rewritten without re-uploading but counted under
    `migrated` (line 52), not `fixed` as the claim states — even though
    the command's own log calls this arm "Decoded & fixed" (line 53). -/
theorem C1_counters_eval :
    runFix idEnv
      ["https://res.cloudinary.com/demo/image/upload/a.jpg".toList,
       "https%3A//res.cloudinary.com/demo/image/upload/b.jpg".toList] =
    (["https://res.cloudinary.com/demo/image/upload/a.jpg".toList,
      "https://res.cloudinary.com/demo/image/upload/b.jpg".toList],
     ⟨1, 0, 0, 0⟩) := rfl

theorem runFixFrom_canonical (env : CmdEnv) :
    ∀ (names : List (List Char)) (c : Counters),
      (∀ n ∈ names, alreadyCanonical env n) → runFixFrom env c names = (names, c) := by
  intro names
  induction names with
  | nil => intro c _; rfl
  | cons a t ih =>
    intro c h
    obtain ⟨h1, h2, h3⟩ := h a (List.mem_cons_self a t)
    have hproc : processRecord env a = (a, none) := by
      simp only [processRecord, h1]
      rw [if_pos ⟨h2, h3⟩, if_neg (fun hc => hc rfl)]
    rw [runFixFrom]
    simp only [hproc, bump]
    rw [ih c (fun n hn => h n (List.mem_cons_of_mem a hn))]

/-- C4 (amended): on a corpus whose every record is already canonical —
    as a successful first run leaves fixed/migrated records — a further
    run leaves every record unchanged and reports
    migrated = fixed = skipped = errors = 0: already-correct records are
    classified under no counter at all (in particular not as skipped). -/
theorem C4_second_run_idempotent (env : CmdEnv) (names : List (List Char))
    (h : ∀ n ∈ names, alreadyCanonical env n) :
    runFix env names = (names, ⟨0, 0, 0, 0⟩) :=
  runFixFrom_canonical env names ⟨0, 0, 0, 0⟩ h

/-- Counterexample for C4 as stated: a one-record corpus already fixed by
    a first run is re-processed with `skipped = 0` — the already-correct
    record is not classified as skipped (it is not counted at all). -/
theorem C4_counterexample :
    runFix idEnv ["https://res.cloudinary.com/demo2/image/upload/x.jpg".toList] =
      (["https://res.cloudinary.com/demo2/image/upload/x.jpg".toList],
       ⟨0, 0, 0, 0⟩) := rfl

/-- Witness for C4 (amended) at a concrete input. -/
theorem C4_witness :
    runFix idEnv ["https://res.cloudinary.com/demo3/image/upload/y.jpg".toList] =
      (["https://res.cloudinary.com/demo3/image/upload/y.jpg".toList],
       ⟨0, 0, 0, 0⟩) :=
  C4_second_run_idempotent idEnv _ (by
    intro n hn
    simp only [List.mem_singleton] at hn
    subst hn
    exact ⟨rfl, by decide, by decide⟩)

theorem urlsplit_ok_of_netlocOk (v : List Char) (h : netlocOk (rawNetloc v) = true) :
    ∃ parts, urlsplit v = .ok parts := by
  have h2 : netlocOk
      (if (splitScheme (removeUnsafe v)).2.take 2 = "//".toList then
        ((splitScheme (removeUnsafe v)).2.drop 2).takeWhile notDelim
      else []) = true := h
  rw [urlsplit]
  simp only []
  rw [if_pos h2]
  exact ⟨_, rfl⟩

/-- C3 (amended): the normalizer is total and pure on every input whose
    derived authority is bracket-free ASCII: the empty string yields the
    unresolvable signal, every non-absolute candidate yields the
    unresolvable signal, and every candidate whose derived authority
    passes the authority check returns normally (URL or `None`) — no
    exception escapes.  (Inputs with a bracketed authority can raise
    `ValueError` from the unguarded `urlsplit` call, see the
    counterexample.) -/
theorem C3_total_on_bracket_free :
    normalize_candidate [] = .ok none ∧
    (∀ cand, isAbs (preprocess cand) = false → normalize_candidate cand = .ok none) ∧
    (∀ cand, netlocOk (rawNetloc (preprocess cand)) = true →
      ∃ r, normalize_candidate cand = .ok r) := by
  refine ⟨rfl, ?_, ?_⟩
  · intro cand h
    by_cases hn : cand = []
    · simp [normalize_candidate, hn]
    · simp [normalize_candidate, hn, h]
  · intro cand h
    by_cases hn : cand = []
    · exact ⟨none, by simp [normalize_candidate, hn]⟩
    · by_cases habs : isAbs (preprocess cand) = true
      · obtain ⟨parts, hp⟩ := urlsplit_ok_of_netlocOk (preprocess cand) h
        have hres : normalize_candidate cand =
            .ok (some (urlunsplit
              ⟨if parts.scheme = "http".toList then "https".toList else parts.scheme,
               parts.netloc, cloudRepair parts.netloc parts.path,
               parts.query, parts.fragment⟩)) := by
          simp [normalize_candidate, hn, habs, hp]
        exact ⟨_, hres⟩
      · rw [Bool.not_eq_true] at habs
        exact ⟨none, by simp [normalize_candidate, hn, habs]⟩

/-- Counterexample for C3 as stated: `"http://["` reaches the unguarded
    `urlsplit` call, whose authority check raises `ValueError`, so an
    exception escapes `_normalize_candidate`. -/
theorem C3_counterexample :
    normalize_candidate "http://[".toList = .error () := rfl

/-- Witness for C3 (amended) at concrete inputs. -/
theorem C3_witness :
    normalize_candidate "hello".toList = .ok none ∧
    (∃ r, normalize_candidate "http://x/a".toList = .ok r) :=
  ⟨C3_total_on_bracket_free.2.1 "hello".toList (by decide),
   C3_total_on_bracket_free.2.2 "http://x/a".toList (by decide)⟩

/-- Counterexample for C2 as stated: normalization succeeds on
    `"http://"` with output `"https:"`, but re-normalizing that output
    does not return it — it yields the unresolvable signal. -/
theorem C2_counterexample :
    normalize_candidate "http://".toList = .ok (some "https:".toList) ∧
    normalize_candidate "https:".toList = .ok none := ⟨rfl, rfl⟩

/-- Counterexample for C7 as stated: an absolute https URL on the
    canonical host whose path lacks `/image/upload` but contains a
    further `"http"` fragment is not repaired by path insertion — the
    dedup step keeps only the last `"http"` suffix and normalization
    yields the unresolvable signal instead of
    `"https://res.cloudinary.com/tenant/image/upload/http"`. -/
theorem C7_counterexample :
    normalize_candidate "https://res.cloudinary.com/tenant/http".toList = .ok none := rfl

/-- Counterexample for C8 as stated: a `/media/`-prefixed canonical URL
    whose asset name contains `"http"` is not recovered — the dedup step
    keeps only the last `"http"` suffix and normalization yields the
    unresolvable signal instead of the embedded URL. -/
theorem C8_counterexample :
    normalize_candidate
      "/media/https://res.cloudinary.com/t/image/upload/http.jpg".toList = .ok none := rfl

/-! ## String-model lemmas for the normalizer proofs -/

theorem takeWhile_append_boundary {p : Char → Bool} :
    ∀ {l r : List Char}, (∀ c ∈ l, p c = true) → (∀ c, r.head? = some c → p c = false) →
      (l ++ r).takeWhile p = l ∧ (l ++ r).dropWhile p = r := by
  intro l
  induction l with
  | nil =>
    intro r _ hr
    cases r with
    | nil => exact ⟨rfl, rfl⟩
    | cons c t =>
      have hc := hr c rfl
      constructor
      · simp [List.takeWhile_cons, hc]
      · simp [List.dropWhile_cons, hc]
  | cons a l ih =>
    intro r hl hr
    have ha : p a = true := hl a (List.mem_cons_self a l)
    have ihr := ih (fun c hc => hl c (List.mem_cons_of_mem a hc)) hr
    constructor
    · simp [List.takeWhile_cons, ha, ihr.1]
    · simp [List.dropWhile_cons, ha, ihr.2]

theorem contains_false_of_not_mem {x : Char} {l : List Char} (h : x ∉ l) :
    l.contains x = false := by
  cases hb : l.contains x
  · rfl
  · exact absurd (List.elem_iff.1 hb) h

theorem contains_true_of_mem {x : Char} {l : List Char} (h : x ∈ l) :
    l.contains x = true := List.elem_iff.2 h

theorem countHttp_cons_eq {c : Char} {r : List Char}
    (h : ("http".toList).isPrefixOf (c :: r) = false) :
    countHttp (c :: r) = countHttp r := by
  rw [countHttp.eq_def]
  split
  · next heq =>
    rw [heq] at h
    simp [List.isPrefixOf] at h
  · rename_i head r2 hne heq
    injection heq with _ hr
    rw [hr]
  · rename_i x heq
    exact absurd heq (List.cons_ne_nil c r)

theorem suffixFromLastHttp_cons_eq {c : Char} {r : List Char}
    (h : ("http".toList).isPrefixOf (c :: r) = false) :
    suffixFromLastHttp (c :: r) = suffixFromLastHttp r := by
  rw [suffixFromLastHttp.eq_def]
  split
  · next heq =>
    rw [heq] at h
    simp [List.isPrefixOf] at h
  · rename_i head r2 hne heq
    injection heq with _ hr
    rw [hr]
  · rename_i x heq
    exact absurd heq (List.cons_ne_nil c r)

theorem countHttp_zero_of_no_sub :
    ∀ {l : List Char}, isSubstr "http".toList l = false → countHttp l = 0 := by
  intro l
  induction l with
  | nil => intro _; rfl
  | cons c r ih =>
    intro h
    rw [isSubstr, Bool.or_eq_false_iff] at h
    rw [countHttp_cons_eq h.1]
    exact ih h.2

theorem no_sub_of_countHttp_zero :
    ∀ {l : List Char}, countHttp l = 0 → isSubstr "http".toList l = false := by
  intro l
  induction l with
  | nil => intro _; rfl
  | cons c r ih =>
    intro h
    cases hb : ("http".toList).isPrefixOf (c :: r)
    · rw [countHttp_cons_eq hb] at h
      rw [isSubstr, hb, ih h]
      rfl
    · exfalso
      obtain ⟨t, ht⟩ := List.isPrefixOf_iff_prefix.1 hb
      have ht2 : 'h' :: 't' :: 't' :: 'p' :: t = c :: r := ht
      rw [← ht2] at h
      have : countHttp ('h' :: 't' :: 't' :: 'p' :: t) = countHttp t + 1 := rfl
      omega

theorem suffixFromLastHttp_none_of_no_sub :
    ∀ {l : List Char}, isSubstr "http".toList l = false → suffixFromLastHttp l = none := by
  intro l
  induction l with
  | nil => intro _; rfl
  | cons c r ih =>
    intro h
    rw [isSubstr, Bool.or_eq_false_iff] at h
    rw [suffixFromLastHttp_cons_eq h.1]
    exact ih h.2

theorem isSubstr_append_left {pat : List Char} :
    ∀ {l r : List Char}, isSubstr pat r = true → isSubstr pat (l ++ r) = true := by
  intro l
  induction l with
  | nil => intro r h; exact h
  | cons c t ih =>
    intro r h
    rw [List.cons_append, isSubstr, ih h, Bool.or_true]

theorem isSubstr_of_isPrefixOf {pat l : List Char} (h : pat.isPrefixOf l = true) :
    isSubstr pat l = true := by
  cases l with
  | nil => rw [isSubstr]; exact h
  | cons c t => rw [isSubstr, h, Bool.true_or]

theorem isSubstr_append_right {pat : List Char} :
    ∀ {l r : List Char}, isSubstr pat l = true → isSubstr pat (l ++ r) = true := by
  intro l
  induction l with
  | nil =>
    intro r h
    rw [isSubstr] at h
    have hp : pat = [] := by
      obtain ⟨t, ht⟩ := List.isPrefixOf_iff_prefix.1 h
      cases pat with
      | nil => rfl
      | cons a b => cases ht
    rw [hp]
    exact isSubstr_of_isPrefixOf (by rw [List.isPrefixOf_iff_prefix]; exact List.nil_prefix)
  | cons c t ih =>
    intro r h
    rw [isSubstr, Bool.or_eq_true] at h
    rw [List.cons_append, isSubstr]
    rcases h with h | h
    · have hpre : pat.isPrefixOf (c :: (t ++ r)) = true := by
        rw [List.isPrefixOf_iff_prefix, ← List.cons_append]
        exact (List.isPrefixOf_iff_prefix.1 h).trans (List.prefix_append _ _)
      rw [hpre, Bool.true_or]
    · rw [ih h, Bool.or_true]

theorem head_dropWhile_false {p : Char → Bool} :
    ∀ {l : List Char} {c : Char}, (l.dropWhile p).head? = some c → p c = false := by
  intro l
  induction l with
  | nil => intro c hc; cases hc
  | cons a t ih =>
    intro c hc
    rw [List.dropWhile_cons] at hc
    by_cases hp : p a = true
    · rw [if_pos hp] at hc
      exact ih hc
    · rw [if_neg hp] at hc
      injection hc with hc
      cases hb : p a
      · rw [← hc]; exact hb
      · exact absurd hb hp

theorem dropWhile_head_not {p : Char → Bool} {l : List Char}
    (h : ∀ c, l.head? = some c → p c = false) : l.dropWhile p = l := by
  cases l with
  | nil => rfl
  | cons c t =>
    rw [List.dropWhile_cons, h c rfl]
    simp

theorem stripWs_eq_self {l : List Char}
    (h1 : ∀ c, l.head? = some c → isWs c = false)
    (h2 : ∀ c, l.getLast? = some c → isWs c = false) : stripWs l = l := by
  rw [stripWs, lstripWs, dropWhile_head_not h1]
  rw [dropWhile_head_not (by intro c hc; rw [List.head?_reverse] at hc; exact h2 c hc)]
  exact List.reverse_reverse l

theorem unquoteLoop_no_percent {n : Nat} {v : List Char} (h : '%' ∉ v) :
    unquoteLoop n v = v := by
  cases n with
  | zero => rfl
  | succ m =>
    rw [unquoteLoop]
    rw [contains_false_of_not_mem h]
    simp

theorem dedupHttp_eq_self {v : List Char} (h : countHttp v ≤ 1) : dedupHttp v = v := by
  rw [dedupHttp, if_neg]
  omega

theorem netChar_spec {c : Char} (h : netChar c = true) :
    notDelim c = true ∧ isUnsafeChar c = false ∧ c ≠ '[' ∧ c ≠ ']' ∧ c.toNat < 128 := by
  simp only [netChar, Bool.and_eq_true, Bool.not_eq_true', decide_eq_true_eq, ne_eq] at h
  tauto

theorem pathChar_spec {c : Char} (h : pathChar c = true) :
    c ≠ '?' ∧ c ≠ '#' ∧ isUnsafeChar c = false := by
  simp only [pathChar, Bool.and_eq_true, Bool.not_eq_true', decide_eq_true_eq, ne_eq] at h
  tauto

theorem queryChar_spec {c : Char} (h : queryChar c = true) :
    c ≠ '#' ∧ isUnsafeChar c = false := by
  simp only [queryChar, Bool.and_eq_true, Bool.not_eq_true', decide_eq_true_eq, ne_eq] at h
  tauto

theorem isPrefixOf_append_self (l t : List Char) : l.isPrefixOf (l ++ t) = true := by
  rw [List.isPrefixOf_iff_prefix]
  exact List.prefix_append l t

theorem isAbs_https (t : List Char) : isAbs ("https://".toList ++ t) = true := by
  rw [isAbs, isPrefixOf_append_self, Bool.or_true]

theorem schemeRepair_https (t : List Char) :
    schemeRepair ("https://".toList ++ t) = "https://".toList ++ t := by
  have h1 : "http:/".toList.isPrefixOf ("https://".toList ++ t) = false := rfl
  have h2 : "https://".toList.isPrefixOf ("https://".toList ++ t) = true :=
    isPrefixOf_append_self _ _
  simp [schemeRepair, h1, h2]

theorem lastHttpFix_abs {v : List Char} (h : isAbs v = true) : lastHttpFix v = v := by
  rw [lastHttpFix, if_neg]
  intro hc
  exact hc.1 h

/-- The whole preprocessing chain of `_normalize_candidate` is the
    identity on an `https://`-prefixed value whose tail has no further
    `"http"`, no percent sign, and no trailing whitespace. -/
theorem preprocess_https_noop (t : List Char)
    (hhttp : countHttp t = 0)
    (hpct : '%' ∉ t)
    (hlast : ∀ c, t.getLast? = some c → isWs c = false) :
    preprocess ("https://".toList ++ t) = "https://".toList ++ t := by
  have hlast2 : ∀ c, ("https://".toList ++ t).getLast? = some c → isWs c = false := by
    intro c hc
    rw [List.getLast?_append] at hc
    cases ht : t.getLast? with
    | none =>
      rw [ht] at hc
      have h8 : (Option.none).or (("https://".toList).getLast?) = some '/' := by decide
      rw [h8] at hc
      injection hc with hc
      rw [← hc]
      rfl
    | some d =>
      rw [ht] at hc
      have : (some d).or (("https://".toList).getLast?) = some d := rfl
      rw [this] at hc
      injection hc with hc
      rw [← hc]
      exact hlast d ht
  have hstrip : stripWs ("https://".toList ++ t) = "https://".toList ++ t := by
    apply stripWs_eq_self ?_ hlast2
    intro c hc
    have hc2 : some 'h' = some c := hc
    injection hc2 with hc2
    rw [← hc2]
    rfl
  have hdedup : dedupHttp ("https://".toList ++ t) = "https://".toList ++ t := by
    apply dedupHttp_eq_self
    have h1 : countHttp ("https://".toList ++ t) = countHttp t + 1 := rfl
    omega
  have hunq : unquoteLoop 3 ("https://".toList ++ t) = "https://".toList ++ t := by
    apply unquoteLoop_no_percent
    intro hm
    rcases List.mem_append.1 hm with hm | hm
    · exact absurd hm (by decide)
    · exact hpct hm
  simp only [preprocess]
  rw [hstrip, hdedup, hunq]
  have hx : lstripSlash (lstripWs ("https://".toList ++ t)) = "https://".toList ++ t := rfl
  rw [hx]
  have hm : "media/".toList.isPrefixOf ("https://".toList ++ t) = false := rfl
  rw [if_neg (by rw [hm]; exact Bool.false_ne_true)]
  rw [schemeRepair_https, lastHttpFix_abs (isAbs_https t)]

/-- The preprocessing chain on a `/media/`-prefixed canonical URL strips
    the slash and the `media/` prefix and returns the embedded URL. -/
theorem preprocess_media_noop (t : List Char)
    (hhttp : countHttp t = 0)
    (hpct : '%' ∉ t)
    (hlast : ∀ c, t.getLast? = some c → isWs c = false) :
    preprocess ("/media/https://res.cloudinary.com/".toList ++ t) =
      "https://res.cloudinary.com/".toList ++ t := by
  have hlast2 : ∀ c, ("/media/https://res.cloudinary.com/".toList ++ t).getLast? = some c →
      isWs c = false := by
    intro c hc
    rw [List.getLast?_append] at hc
    cases ht : t.getLast? with
    | none =>
      rw [ht] at hc
      have h8 : (Option.none).or (("/media/https://res.cloudinary.com/".toList).getLast?) =
          some '/' := by decide
      rw [h8] at hc
      injection hc with hc
      rw [← hc]
      rfl
    | some d =>
      rw [ht] at hc
      have : (some d).or (("/media/https://res.cloudinary.com/".toList).getLast?) = some d := rfl
      rw [this] at hc
      injection hc with hc
      rw [← hc]
      exact hlast d ht
  have hstrip : stripWs ("/media/https://res.cloudinary.com/".toList ++ t) =
      "/media/https://res.cloudinary.com/".toList ++ t := by
    apply stripWs_eq_self ?_ hlast2
    intro c hc
    have hc2 : some '/' = some c := hc
    injection hc2 with hc2
    rw [← hc2]
    rfl
  have hdedup : dedupHttp ("/media/https://res.cloudinary.com/".toList ++ t) =
      "/media/https://res.cloudinary.com/".toList ++ t := by
    apply dedupHttp_eq_self
    have h1 : countHttp ("/media/https://res.cloudinary.com/".toList ++ t) =
        countHttp t + 1 := rfl
    omega
  have hunq : unquoteLoop 3 ("/media/https://res.cloudinary.com/".toList ++ t) =
      "/media/https://res.cloudinary.com/".toList ++ t := by
    apply unquoteLoop_no_percent
    intro hm
    rcases List.mem_append.1 hm with hm | hm
    · exact absurd hm (by decide)
    · exact hpct hm
  simp only [preprocess]
  rw [hstrip, hdedup, hunq]
  have hx : lstripSlash (lstripWs ("/media/https://res.cloudinary.com/".toList ++ t)) =
      "media/https://res.cloudinary.com/".toList ++ t := rfl
  rw [hx]
  have hmt : "media/".toList.isPrefixOf
      ("media/https://res.cloudinary.com/".toList ++ t) = true := by
    rw [List.isPrefixOf_iff_prefix]
    rw [show "media/https://res.cloudinary.com/".toList ++ t =
      "media/".toList ++ ("https://res.cloudinary.com/".toList ++ t) from rfl]
    exact List.prefix_append _ _
  rw [if_pos hmt]
  have hdrop : List.drop 6 ("media/https://res.cloudinary.com/".toList ++ t) =
      "https://res.cloudinary.com/".toList ++ t := rfl
  rw [hdrop]
  rw [show "https://res.cloudinary.com/".toList ++ t =
    "https://".toList ++ ("res.cloudinary.com/".toList ++ t) from rfl]
  rw [schemeRepair_https, lastHttpFix_abs (isAbs_https _)]

theorem pq_split (p q : List Char)
    (hp : ∀ c ∈ p, pathChar c = true) (_hq : ∀ c ∈ q, queryChar c = true) :
    (if (p ++ (if q = [] then [] else '?' :: q)).contains '?' = true then
        (p ++ (if q = [] then [] else '?' :: q)).takeWhile (fun c => c ≠ '?')
      else p ++ (if q = [] then [] else '?' :: q)) = p ∧
    (if (p ++ (if q = [] then [] else '?' :: q)).contains '?' = true then
        ((p ++ (if q = [] then [] else '?' :: q)).dropWhile (fun c => c ≠ '?')).drop 1
      else []) = q := by
  by_cases hqe : q = []
  · rw [if_pos hqe, List.append_nil]
    have hnc : p.contains '?' = false :=
      contains_false_of_not_mem (fun hm => (pathChar_spec (hp _ hm)).1 rfl)
    rw [hnc]
    refine ⟨by rw [if_neg Bool.false_ne_true], ?_⟩
    rw [if_neg Bool.false_ne_true]
    exact hqe.symm
  · rw [if_neg hqe]
    have hbd := takeWhile_append_boundary (p := fun c => (c ≠ '?' : Bool)) (l := p)
      (r := '?' :: q)
      (fun c hc => by
        simp only [ne_eq, decide_eq_true_eq]
        exact (pathChar_spec (hp c hc)).1)
      (fun c hc => by
        have hc2 : some '?' = some c := hc
        injection hc2 with hc2
        rw [← hc2]
        simp)
    have hcont : (p ++ '?' :: q).contains '?' = true :=
      contains_true_of_mem (List.mem_append.2 (Or.inr (List.mem_cons_self _ _)))
    rw [hcont]
    refine ⟨by rw [if_pos rfl, hbd.1], ?_⟩
    rw [if_pos rfl, hbd.2]
    rfl

theorem zf_split (z f : List Char) (hz : ∀ c ∈ z, c ≠ '#') :
    (if (z ++ (if f = [] then [] else '#' :: f)).contains '#' = true then
        (z ++ (if f = [] then [] else '#' :: f)).takeWhile (fun c => c ≠ '#')
      else z ++ (if f = [] then [] else '#' :: f)) = z ∧
    (if (z ++ (if f = [] then [] else '#' :: f)).contains '#' = true then
        ((z ++ (if f = [] then [] else '#' :: f)).dropWhile (fun c => c ≠ '#')).drop 1
      else []) = f := by
  by_cases hfe : f = []
  · rw [if_pos hfe, List.append_nil]
    have hnc : z.contains '#' = false :=
      contains_false_of_not_mem (fun hm => hz _ hm rfl)
    rw [hnc]
    refine ⟨by rw [if_neg Bool.false_ne_true], ?_⟩
    rw [if_neg Bool.false_ne_true]
    exact hfe.symm
  · rw [if_neg hfe]
    have hbd := takeWhile_append_boundary (p := fun c => (c ≠ '#' : Bool)) (l := z)
      (r := '#' :: f)
      (fun c hc => by
        simp only [ne_eq, decide_eq_true_eq]
        exact hz c hc)
      (fun c hc => by
        have hc2 : some '#' = some c := hc
        injection hc2 with hc2
        rw [← hc2]
        simp)
    have hcont : (z ++ '#' :: f).contains '#' = true :=
      contains_true_of_mem (List.mem_append.2 (Or.inr (List.mem_cons_self _ _)))
    rw [hcont]
    refine ⟨by rw [if_pos rfl, hbd.1], ?_⟩
    rw [if_pos rfl, hbd.2]
    rfl

/-- `urlsplit` recovers the components of a well-formed assembled
    `https` URL. -/
theorem urlsplit_assembled (n p q f : List Char)
    (hn : ∀ c ∈ n, netChar c = true)
    (hp0 : p = [] ∨ p.head? = some '/')
    (hp : ∀ c ∈ p, pathChar c = true)
    (hq : ∀ c ∈ q, queryChar c = true)
    (hf : ∀ c ∈ f, fragChar c = true) :
    urlsplit ("https://".toList ++ (n ++ (p ++
        ((if q = [] then [] else '?' :: q) ++ (if f = [] then [] else '#' :: f))))) =
      .ok ⟨"https".toList, n, p, q, f⟩ := by
  have hQmem : ∀ c ∈ (if q = [] then ([] : List Char) else '?' :: q), c = '?' ∨ c ∈ q := by
    intro c hc
    by_cases hqe : q = []
    · rw [if_pos hqe] at hc; cases hc
    · rw [if_neg hqe] at hc
      exact List.mem_cons.1 hc
  have hFmem : ∀ c ∈ (if f = [] then ([] : List Char) else '#' :: f), c = '#' ∨ c ∈ f := by
    intro c hc
    by_cases hfe : f = []
    · rw [if_pos hfe] at hc; cases hc
    · rw [if_neg hfe] at hc
      exact List.mem_cons.1 hc
  have hclean : removeUnsafe ("https://".toList ++ (n ++ (p ++
      ((if q = [] then [] else '?' :: q) ++ (if f = [] then [] else '#' :: f))))) =
      "https://".toList ++ (n ++ (p ++
        ((if q = [] then [] else '?' :: q) ++ (if f = [] then [] else '#' :: f)))) := by
    rw [removeUnsafe, List.filter_eq_self]
    intro c hc
    have hunsf : isUnsafeChar c = false := by
      rcases List.mem_append.1 hc with hc | hc
      · exact (by decide : ∀ c ∈ "https://".toList, isUnsafeChar c = false) c hc
      rcases List.mem_append.1 hc with hc | hc
      · exact (netChar_spec (hn c hc)).2.1
      rcases List.mem_append.1 hc with hc | hc
      · exact (pathChar_spec (hp c hc)).2.2
      rcases List.mem_append.1 hc with hc | hc
      · rcases hQmem c hc with hc | hc
        · rw [hc]; rfl
        · exact (queryChar_spec (hq c hc)).2
      · rcases hFmem c hc with hc | hc
        · rw [hc]; rfl
        · have := hf c hc
          simpa [fragChar, Bool.not_eq_true'] using this
    rw [hunsf]
    rfl
  have hsch : splitScheme ("https://".toList ++ (n ++ (p ++
      ((if q = [] then [] else '?' :: q) ++ (if f = [] then [] else '#' :: f))))) =
      ("https".toList, '/' :: '/' :: (n ++ (p ++
        ((if q = [] then [] else '?' :: q) ++ (if f = [] then [] else '#' :: f))))) := rfl
  have hheadZ : ∀ c, (p ++ ((if q = [] then [] else '?' :: q) ++
      (if f = [] then [] else '#' :: f))).head? = some c → notDelim c = false := by
    intro c hc
    rcases hp0 with hp0 | hp0
    · rw [hp0, List.nil_append] at hc
      by_cases hqe : q = []
      · rw [if_pos hqe, List.nil_append] at hc
        by_cases hfe : f = []
        · rw [if_pos hfe] at hc; cases hc
        · rw [if_neg hfe] at hc
          have hc2 : some '#' = some c := hc
          injection hc2 with hc2
          rw [← hc2]; rfl
      · rw [if_neg hqe] at hc
        have hc2 : some '?' = some c := hc
        injection hc2 with hc2
        rw [← hc2]; rfl
    · rw [List.head?_append, hp0] at hc
      have hc2 : some '/' = some c := hc
      injection hc2 with hc2
      rw [← hc2]; rfl
  have hbound := takeWhile_append_boundary (p := notDelim)
    (l := n)
    (r := p ++ ((if q = [] then [] else '?' :: q) ++ (if f = [] then [] else '#' :: f)))
    (fun c hc => (netChar_spec (hn c hc)).1) hheadZ
  have hok : netlocOk n = true := by
    rw [netlocOk, List.all_eq_true]
    intro c hc
    obtain ⟨_, _, hb1, hb2, ha⟩ := netChar_spec (hn c hc)
    simp [hb1, hb2, ha]
  have hz : ∀ c ∈ p ++ (if q = [] then ([] : List Char) else '?' :: q), c ≠ '#' := by
    intro c hc
    rcases List.mem_append.1 hc with hc | hc
    · exact (pathChar_spec (hp c hc)).2.1
    · rcases hQmem c hc with hc | hc
      · rw [hc]; decide
      · exact (queryChar_spec (hq c hc)).1
  simp only [urlsplit]
  rw [hclean, hsch]
  dsimp only
  rw [show ('/' :: '/' :: (n ++ (p ++ ((if q = [] then [] else '?' :: q) ++
      (if f = [] then [] else '#' :: f))))).take 2 = "//".toList from rfl]
  rw [if_pos rfl, if_pos rfl]
  rw [show ('/' :: '/' :: (n ++ (p ++ ((if q = [] then [] else '?' :: q) ++
      (if f = [] then [] else '#' :: f))))).drop 2 =
    n ++ (p ++ ((if q = [] then [] else '?' :: q) ++
      (if f = [] then [] else '#' :: f))) from rfl]
  rw [hbound.1, hbound.2]
  rw [if_pos hok]
  rw [show p ++ ((if q = [] then [] else '?' :: q) ++ (if f = [] then [] else '#' :: f)) =
    (p ++ (if q = [] then [] else '?' :: q)) ++ (if f = [] then [] else '#' :: f) from
    (List.append_assoc _ _ _).symm]
  rw [(zf_split _ f hz).1, (zf_split _ f hz).2]
  rw [(pq_split p q hp hq).1, (pq_split p q hp hq).2]

/-- `urlunsplit` on well-formed `https` components produces the
    canonical assembled form. -/
theorem urlunsplit_https (n p q f : List Char) (hnn : n ≠ [])
    (hp0 : p = [] ∨ p.head? = some '/') :
    urlunsplit ⟨"https".toList, n, p, q, f⟩ =
      "https://".toList ++ (n ++ (p ++
        ((if q = [] then [] else '?' :: q) ++ (if f = [] then [] else '#' :: f)))) := by
  have hurl2 : ¬ (p ≠ [] ∧ p.take 1 ≠ "/".toList) := by
    rcases hp0 with hp0 | hp0
    · intro hc; exact hc.1 hp0
    · intro hc
      apply hc.2
      cases p with
      | nil => cases hp0
      | cons a t =>
        have ha : some a = some '/' := hp0
        injection ha with ha
        rw [show (a :: t).take 1 = [a] from rfl, ha]
        rfl
  simp only [urlunsplit]
  rw [if_pos (Or.inl hnn)]
  rw [if_neg hurl2]
  rw [if_pos (by decide : ("https".toList : List Char) ≠ [])]
  by_cases hqe : q = []
  · by_cases hfe : f = []
    · rw [if_neg (show ¬ (f ≠ []) from fun hc => hc hfe),
        if_neg (show ¬ (q ≠ []) from fun hc => hc hqe), if_pos hqe, if_pos hfe]
      simp only [List.nil_append, List.append_nil, List.append_assoc]
      rfl
    · rw [if_pos (show f ≠ [] from hfe),
        if_neg (show ¬ (q ≠ []) from fun hc => hc hqe), if_pos hqe, if_neg hfe]
      simp only [List.nil_append, List.append_nil, List.append_assoc, List.cons_append]
      rfl
  · by_cases hfe : f = []
    · rw [if_neg (show ¬ (f ≠ []) from fun hc => hc hfe),
        if_pos (show q ≠ [] from hqe), if_neg hqe, if_pos hfe]
      simp only [List.nil_append, List.append_nil, List.append_assoc, List.cons_append]
      rfl
    · rw [if_pos (show f ≠ [] from hfe),
        if_pos (show q ≠ [] from hqe), if_neg hqe, if_neg hfe]
      simp only [List.nil_append, List.append_nil, List.append_assoc, List.cons_append]
      rfl

theorem splitSlash_ne_nil (l : List Char) : splitSlash l ≠ [] := by
  rw [splitSlash.eq_def]
  split
  · simp
  · simp
  · split <;> simp

theorem splitSlash_cons_ne {c : Char} {r s : List Char} {ss : List (List Char)}
    (h : c ≠ '/') (hr : splitSlash r = s :: ss) :
    splitSlash (c :: r) = (c :: s) :: ss := by
  rw [splitSlash.eq_def]
  split
  · next heq => exact absurd heq (List.cons_ne_nil c r)
  · next heq =>
    injection heq with h1 _
    exact absurd h1 h
  · next heq =>
    rename_i c2 r2
    injection heq with h1 h2
    rw [← h1, ← h2, hr]

theorem joinSlash_splitSlash : ∀ (l : List Char), joinSlash (splitSlash l) = l := by
  intro l
  induction l with
  | nil => rfl
  | cons c r ih =>
    by_cases hc : c = '/'
    · rw [hc]
      rw [show splitSlash ('/' :: r) = [] :: splitSlash r from rfl]
      obtain ⟨s, ss, hss⟩ : ∃ s ss, splitSlash r = s :: ss := by
        cases hsr : splitSlash r with
        | nil => exact absurd hsr (splitSlash_ne_nil r)
        | cons s ss => exact ⟨s, ss, rfl⟩
      rw [hss]
      rw [show joinSlash ([] :: s :: ss) = '/' :: joinSlash (s :: ss) from rfl]
      rw [← hss, ih]
    · obtain ⟨s, ss, hss⟩ : ∃ s ss, splitSlash r = s :: ss := by
        cases hsr : splitSlash r with
        | nil => exact absurd hsr (splitSlash_ne_nil r)
        | cons s ss => exact ⟨s, ss, rfl⟩
      rw [splitSlash_cons_ne hc hss]
      cases ss with
      | nil =>
        rw [show joinSlash [c :: s] = c :: s from rfl]
        have hs : s = r := by
          have h2 : joinSlash (splitSlash r) = r := ih
          rw [hss] at h2
          exact h2
        rw [hs]
      | cons s2 ss2 =>
        rw [show joinSlash ((c :: s) :: s2 :: ss2) =
          (c :: s) ++ '/' :: joinSlash (s2 :: ss2) from rfl]
        have h2 : s ++ '/' :: joinSlash (s2 :: ss2) = r := by
          have h3 : joinSlash (splitSlash r) = r := ih
          rw [hss] at h3
          exact h3
        rw [List.cons_append, h2]

theorem splitSlash_append_slash {tenant : List Char} (h : '/' ∉ tenant) (rest : List Char) :
    splitSlash (tenant ++ '/' :: rest) = tenant :: splitSlash rest := by
  induction tenant with
  | nil => rfl
  | cons c t ih =>
    have hc : c ≠ '/' := fun he => h (he ▸ List.mem_cons_self c t)
    have iht := ih (fun hm => h (List.mem_cons_of_mem c hm))
    rw [List.cons_append]
    obtain ⟨s, ss, hss⟩ : ∃ s ss, splitSlash (t ++ '/' :: rest) = s :: ss := by
      cases hsr : splitSlash (t ++ '/' :: rest) with
      | nil => exact absurd hsr (splitSlash_ne_nil _)
      | cons s ss => exact ⟨s, ss, rfl⟩
    rw [splitSlash_cons_ne hc hss]
    rw [hss] at iht
    injection iht with ih1 ih2
    rw [ih1, ih2]

/-- The Cloudinary path repair inserts `/image/upload/` after the first
    path component on a canonical-host URL whose path lacks it. -/
theorem cloudRepair_insert (tenant rest : List Char)
    (htne : tenant ≠ []) (hrne : rest ≠ [])
    (hslash : '/' ∉ tenant)
    (hnohttp : isSubstr "http".toList ('/' :: (tenant ++ '/' :: rest)) = false)
    (hnoupload : isSubstr "/image/upload".toList ('/' :: (tenant ++ '/' :: rest)) = false) :
    cloudRepair "res.cloudinary.com".toList ('/' :: (tenant ++ '/' :: rest)) =
      '/' :: (tenant ++ "/image/upload/".toList ++ rest) := by
  simp only [cloudRepair]
  rw [if_pos (by decide : isSubstr "res.cloudinary.com".toList
    (("res.cloudinary.com".toList).map Char.toLower) = true)]
  rw [suffixFromLastHttp_none_of_no_sub hnohttp]
  rw [if_neg (by rw [hnoupload]; exact Bool.false_ne_true)]
  rw [show splitSlash ('/' :: (tenant ++ '/' :: rest)) =
    [] :: splitSlash (tenant ++ '/' :: rest) from rfl]
  rw [splitSlash_append_slash hslash]
  dsimp only
  rw [if_pos htne]
  rw [joinSlash_splitSlash]
  rw [if_pos hrne]
  simp [List.cons_append, List.append_assoc]

/-- The Cloudinary path repair leaves a path containing `/image/upload`
    (and no stray `"http"`) unchanged. -/
theorem cloudRepair_keep (n path : List Char)
    (hnohttp : isSubstr "http".toList path = false)
    (hupload : isSubstr "/image/upload".toList path = true) :
    cloudRepair n path = path := by
  simp only [cloudRepair]
  by_cases hh : isSubstr "res.cloudinary.com".toList (n.map Char.toLower) = true
  · rw [if_pos hh]
    rw [suffixFromLastHttp_none_of_no_sub hnohttp]
    rw [if_pos hupload]
  · rw [if_neg (by rw [Bool.not_eq_true] at hh ⊢; exact hh)]

theorem plainChar_spec {c : Char} (h : plainChar c = true) :
    c ≠ '%' ∧ c ≠ '?' ∧ c ≠ '#' ∧ isUnsafeChar c = false ∧ c.isWhitespace = false := by
  simp only [plainChar, Bool.not_eq_true', Bool.or_eq_false_iff,
    decide_eq_false_iff_not] at h
  tauto

/-- C7 (amended): for an absolute https URL of the canonical remote
    image host whose path is `/tenant/rest` — tenant nonempty and
    slash-free, rest nonempty, both of plain path characters, the path
    containing no `/image/upload` segment and no further `"http"`
    fragment — the normalizer re-derives the path by treating the first
    segment as the cloud identifier and inserting `/image/upload/`
    immediately after it. -/
theorem C7_path_insertion (tenant rest : List Char)
    (htne : tenant ≠ []) (hrne : rest ≠ [])
    (hslash : '/' ∉ tenant)
    (ht : ∀ c ∈ tenant, plainChar c = true)
    (hr : ∀ c ∈ rest, plainChar c = true)
    (hnohttp : isSubstr "http".toList ('/' :: (tenant ++ '/' :: rest)) = false)
    (hnoupload : isSubstr "/image/upload".toList ('/' :: (tenant ++ '/' :: rest)) = false) :
    normalize_candidate ("https://res.cloudinary.com/".toList ++ (tenant ++ '/' :: rest)) =
      .ok (some ("https://res.cloudinary.com/".toList ++
        (tenant ++ "/image/upload/".toList ++ rest))) := by
  have hplain : ∀ c ∈ tenant ++ '/' :: rest, plainChar c = true ∨ c = '/' := by
    intro c hc
    rcases List.mem_append.1 hc with hc | hc
    · exact Or.inl (ht c hc)
    · rcases List.mem_cons.1 hc with hc | hc
      · exact Or.inr hc
      · exact Or.inl (hr c hc)
  have hcount : countHttp ("res.cloudinary.com/".toList ++ (tenant ++ '/' :: rest)) = 0 := by
    have h0 : countHttp ('/' :: (tenant ++ '/' :: rest)) = 0 :=
      countHttp_zero_of_no_sub hnohttp
    exact h0
  have hpct : '%' ∉ "res.cloudinary.com/".toList ++ (tenant ++ '/' :: rest) := by
    intro hm
    rcases List.mem_append.1 hm with hm | hm
    · exact absurd hm (by decide)
    · rcases hplain '%' hm with h | h
      · exact (plainChar_spec h).1 rfl
      · exact absurd h (by decide)
  have hlast : ∀ c, ("res.cloudinary.com/".toList ++
      (tenant ++ '/' :: rest)).getLast? = some c → isWs c = false := by
    intro c hc
    have hmem := List.mem_of_mem_getLast? hc
    rcases List.mem_append.1 hmem with hm | hm
    · exact (by decide : ∀ c ∈ "res.cloudinary.com/".toList, isWs c = false) c hm
    · rcases hplain c hm with h | h
      · have hw := (plainChar_spec h).2.2.2.2
        rw [isWs]
        exact hw
      · rw [h]
        rfl
  have hne : ("https://".toList ++
      ("res.cloudinary.com/".toList ++ (tenant ++ '/' :: rest))) ≠ [] :=
    fun h => List.noConfusion (show ('h' :: ("ttps://res.cloudinary.com/".toList ++
      (tenant ++ '/' :: rest))) = ([] : List Char) from h)
  have hsplit : urlsplit ("https://".toList ++
      ("res.cloudinary.com/".toList ++ (tenant ++ '/' :: rest))) =
      .ok ⟨"https".toList, "res.cloudinary.com".toList,
        '/' :: (tenant ++ '/' :: rest), [], []⟩ := by
    have h0 := urlsplit_assembled "res.cloudinary.com".toList
      ('/' :: (tenant ++ '/' :: rest)) [] []
      (by decide)
      (Or.inr rfl)
      (by
        intro c hc
        rcases List.mem_cons.1 hc with hc | hc
        · rw [hc]; decide
        · rcases hplain c hc with h | h
          · obtain ⟨h1, h2, h3, h4, h5⟩ := plainChar_spec h
            simp [pathChar, h2, h3, h4]
          · rw [h]; decide)
      (by intro c hc; cases hc)
      (by intro c hc; cases hc)
    simp only [List.nil_append, List.append_nil, reduceIte] at h0
    rw [show ("res.cloudinary.com".toList ++ '/' :: (tenant ++ '/' :: rest) : List Char) =
      "res.cloudinary.com/".toList ++ (tenant ++ '/' :: rest) from rfl] at h0
    exact h0
  rw [show "https://res.cloudinary.com/".toList ++ (tenant ++ '/' :: rest) =
    "https://".toList ++ ("res.cloudinary.com/".toList ++ (tenant ++ '/' :: rest)) from rfl]
  rw [normalize_candidate, if_neg hne]
  rw [preprocess_https_noop _ hcount hpct hlast]
  rw [if_pos (isAbs_https _)]
  rw [hsplit]
  dsimp only
  rw [if_neg (by decide : ¬ (("https".toList : List Char) = "http".toList))]
  rw [cloudRepair_insert tenant rest htne hrne hslash hnohttp hnoupload]
  rw [urlunsplit_https "res.cloudinary.com".toList
    ('/' :: (tenant ++ "/image/upload/".toList ++ rest)) [] [] (by decide) (Or.inr rfl)]
  simp only [eq_self_iff_true, if_true, List.append_nil, List.nil_append]
  rfl

/-- Witness for C7 (amended): the spec's own example. -/
theorem C7_witness :
    normalize_candidate "https://res.cloudinary.com/tenant/posts/abc.jpg".toList =
      .ok (some "https://res.cloudinary.com/tenant/image/upload/posts/abc.jpg".toList) := by
  have h := C7_path_insertion "tenant".toList "posts/abc.jpg".toList
    (by decide) (by decide) (by decide) (by decide) (by decide) (by decide) (by decide)
  simpa using h

/-- C8 (amended): stripping a `/media/` prefix from an already-absolute
    canonical URL whose path contains `/image/upload`, consists of plain
    path characters and has no further `"http"` fragment returns the
    embedded URL. -/
theorem C8_media_strip (path2 : List Char)
    (hpl : ∀ c ∈ path2, plainChar c = true)
    (hnohttp : isSubstr "http".toList ('/' :: path2) = false)
    (hupload : isSubstr "/image/upload".toList ('/' :: path2) = true) :
    normalize_candidate ("/media/".toList ++ ("https://res.cloudinary.com/".toList ++ path2)) =
      .ok (some ("https://res.cloudinary.com/".toList ++ path2)) := by
  have hcount : countHttp path2 = 0 := by
    have h0 : countHttp ('/' :: path2) = 0 := countHttp_zero_of_no_sub hnohttp
    exact h0
  have hpct : '%' ∉ path2 := fun hm => (plainChar_spec (hpl _ hm)).1 rfl
  have hlast : ∀ c, path2.getLast? = some c → isWs c = false := by
    intro c hc
    have hw := (plainChar_spec (hpl c (List.mem_of_mem_getLast? hc))).2.2.2.2
    rw [isWs]
    exact hw
  have hne : ("/media/https://res.cloudinary.com/".toList ++ path2) ≠ [] :=
    fun h => List.noConfusion (show ('/' :: ("media/https://res.cloudinary.com/".toList ++
      path2)) = ([] : List Char) from h)
  have hsplit : urlsplit ("https://".toList ++ ("res.cloudinary.com/".toList ++ path2)) =
      .ok ⟨"https".toList, "res.cloudinary.com".toList, '/' :: path2, [], []⟩ := by
    have h0 := urlsplit_assembled "res.cloudinary.com".toList ('/' :: path2) [] []
      (by decide)
      (Or.inr rfl)
      (by
        intro c hc
        rcases List.mem_cons.1 hc with hc | hc
        · rw [hc]; decide
        · obtain ⟨h1, h2, h3, h4, h5⟩ := plainChar_spec (hpl c hc)
          simp [pathChar, h2, h3, h4])
      (by intro c hc; cases hc)
      (by intro c hc; cases hc)
    simp only [List.nil_append, List.append_nil, reduceIte] at h0
    rw [show ("res.cloudinary.com".toList ++ '/' :: path2 : List Char) =
      "res.cloudinary.com/".toList ++ path2 from rfl] at h0
    exact h0
  rw [show "/media/".toList ++ ("https://res.cloudinary.com/".toList ++ path2) =
    "/media/https://res.cloudinary.com/".toList ++ path2 from rfl]
  rw [normalize_candidate, if_neg hne]
  rw [preprocess_media_noop path2 hcount hpct hlast]
  rw [show "https://res.cloudinary.com/".toList ++ path2 =
    "https://".toList ++ ("res.cloudinary.com/".toList ++ path2) from rfl]
  rw [if_pos (isAbs_https _)]
  rw [hsplit]
  dsimp only
  rw [if_neg (by decide : ¬ (("https".toList : List Char) = "http".toList))]
  rw [cloudRepair_keep _ _ hnohttp hupload]
  rw [urlunsplit_https "res.cloudinary.com".toList ('/' :: path2) [] []
    (by decide) (Or.inr rfl)]
  simp only [eq_self_iff_true, if_true, List.append_nil, List.nil_append]
  rfl

/-- Witness for C8 (amended): the spec's own example. -/
theorem C8_witness :
    normalize_candidate "/media/https://res.cloudinary.com/tenant/image/upload/x.jpg".toList =
      .ok (some "https://res.cloudinary.com/tenant/image/upload/x.jpg".toList) := by
  have h := C8_media_strip "tenant/image/upload/x.jpg".toList
    (by decide) (by decide) (by decide)
  simpa using h

/-! ## Idempotence of the normalizer on its own outputs (C2) -/

theorem no_sub_of_suffix_none :
    ∀ {l : List Char}, suffixFromLastHttp l = none → isSubstr "http".toList l = false := by
  intro l
  induction l with
  | nil => intro _; rfl
  | cons c r ih =>
    intro h
    cases hb : ("http".toList).isPrefixOf (c :: r)
    · rw [suffixFromLastHttp_cons_eq hb] at h
      rw [isSubstr, hb, ih h]
      rfl
    · exfalso
      obtain ⟨t, ht⟩ := List.isPrefixOf_iff_prefix.1 hb
      have ht2 : 'h' :: 't' :: 't' :: 'p' :: t = c :: r := ht
      rw [← ht2] at h
      have h2 : (match suffixFromLastHttp t with
          | some s => some s
          | none => some ('h' :: 't' :: 't' :: 'p' :: t)) = (none : Option (List Char)) := h
      cases hs : suffixFromLastHttp t with
      | none => rw [hs] at h2; exact Option.noConfusion h2
      | some s => rw [hs] at h2; exact Option.noConfusion h2

theorem suffixFromLastHttp_shape :
    ∀ {l s : List Char}, suffixFromLastHttp l = some s →
      ∃ r, s = 'h' :: 't' :: 't' :: 'p' :: r := by
  intro l
  induction l using suffixFromLastHttp.induct with
  | case1 r s0 hrs ih =>
    intro s h
    have h2 : (match suffixFromLastHttp r with
        | some s2 => some s2
        | none => some ('h' :: 't' :: 't' :: 'p' :: r)) = some s := h
    rw [hrs] at h2
    injection h2 with h2
    rw [← h2]
    exact ih hrs
  | case2 r hrn ih =>
    intro s h
    have h2 : (match suffixFromLastHttp r with
        | some s2 => some s2
        | none => some ('h' :: 't' :: 't' :: 'p' :: r)) = some s := h
    rw [hrn] at h2
    injection h2 with h2
    exact ⟨r, h2.symm⟩
  | case3 head r hne ih =>
    intro s h
    have hb : ("http".toList).isPrefixOf (head :: r) = false := by
      cases hb2 : ("http".toList).isPrefixOf (head :: r)
      · rfl
      · exfalso
        obtain ⟨t, ht⟩ := List.isPrefixOf_iff_prefix.1 hb2
        have ht2 : 'h' :: 't' :: 't' :: 'p' :: t = head :: r := ht
        injection ht2 with h1 h2
        exact hne t h1.symm h2.symm
    rw [suffixFromLastHttp_cons_eq hb] at h
    exact ih h
  | case4 => intro s h; cases h

theorem mem_of_suffixFromLastHttp :
    ∀ {l s : List Char}, suffixFromLastHttp l = some s → ∀ {c}, c ∈ s → c ∈ l := by
  intro l
  induction l using suffixFromLastHttp.induct with
  | case1 r s0 hrs ih =>
    intro s h c hc
    have h2 : (match suffixFromLastHttp r with
        | some s2 => some s2
        | none => some ('h' :: 't' :: 't' :: 'p' :: r)) = some s := h
    rw [hrs] at h2
    injection h2 with h2
    rw [← h2] at hc
    have hcr : c ∈ r := ih hrs hc
    exact List.mem_cons_of_mem _ (List.mem_cons_of_mem _ (List.mem_cons_of_mem _
      (List.mem_cons_of_mem _ hcr)))
  | case2 r hrn ih =>
    intro s h c hc
    have h2 : (match suffixFromLastHttp r with
        | some s2 => some s2
        | none => some ('h' :: 't' :: 't' :: 'p' :: r)) = some s := h
    rw [hrn] at h2
    injection h2 with h2
    rw [← h2] at hc
    exact hc
  | case3 head r hne ih =>
    intro s h c hc
    have hb : ("http".toList).isPrefixOf (head :: r) = false := by
      cases hb2 : ("http".toList).isPrefixOf (head :: r)
      · rfl
      · exfalso
        obtain ⟨t, ht⟩ := List.isPrefixOf_iff_prefix.1 hb2
        have ht2 : 'h' :: 't' :: 't' :: 'p' :: t = head :: r := ht
        injection ht2 with h1 h2
        exact hne t h1.symm h2.symm
    rw [suffixFromLastHttp_cons_eq hb] at h
    exact List.mem_cons_of_mem _ (ih h hc)
  | case4 => intro s h; cases h

theorem mem_splitSlash :
    ∀ {l s : List Char}, s ∈ splitSlash l → ∀ {c}, c ∈ s → c ∈ l := by
  intro l
  induction l with
  | nil =>
    intro s hs c hc
    have hs2 : s ∈ [([] : List Char)] := hs
    have hse : s = [] := by simpa using hs2
    rw [hse] at hc
    cases hc
  | cons a r ih =>
    intro s hs c hc
    by_cases ha : a = '/'
    · rw [ha] at hs ⊢
      have hs2 : s ∈ [] :: splitSlash r := hs
      rcases List.mem_cons.1 hs2 with hse | hsr
      · rw [hse] at hc; cases hc
      · exact List.mem_cons_of_mem _ (ih hsr hc)
    · obtain ⟨s0, ss0, hsp⟩ : ∃ s0 ss0, splitSlash r = s0 :: ss0 := by
        cases hsr : splitSlash r with
        | nil => exact absurd hsr (splitSlash_ne_nil r)
        | cons s0 ss0 => exact ⟨s0, ss0, rfl⟩
      rw [splitSlash_cons_ne ha hsp] at hs
      rcases List.mem_cons.1 hs with hse | hss
      · rw [hse] at hc
        rcases List.mem_cons.1 hc with hca | hcs
        · rw [hca]; exact List.mem_cons_self a r
        · exact List.mem_cons_of_mem _ (ih (hsp ▸ List.mem_cons_self s0 ss0) hcs)
      · exact List.mem_cons_of_mem _ (ih (hsp ▸ List.mem_cons_of_mem s0 hss) hc)

theorem mem_joinSlash :
    ∀ {ss : List (List Char)} {c : Char}, c ∈ joinSlash ss →
      c = '/' ∨ ∃ s, s ∈ ss ∧ c ∈ s := by
  intro ss
  induction ss with
  | nil => intro c hc; cases hc
  | cons x xs ih =>
    intro c hc
    cases xs with
    | nil =>
      have hc2 : c ∈ x := hc
      exact Or.inr ⟨x, List.mem_cons_self x [], hc2⟩
    | cons y ys =>
      have hc2 : c ∈ x ++ '/' :: joinSlash (y :: ys) := hc
      rcases List.mem_append.1 hc2 with hcx | hcr
      · exact Or.inr ⟨x, List.mem_cons_self x _, hcx⟩
      · rcases List.mem_cons.1 hcr with hcs | hcj
        · exact Or.inl hcs
        · rcases ih hcj with hcs | ⟨s, hss, hcs⟩
          · exact Or.inl hcs
          · exact Or.inr ⟨s, List.mem_cons_of_mem x hss, hcs⟩

theorem isSubstr_self (pat : List Char) : isSubstr pat pat = true :=
  isSubstr_of_isPrefixOf (by rw [List.isPrefixOf_iff_prefix])

theorem isSubstr_http_of_shape (r : List Char) :
    isSubstr "http".toList ('h' :: 't' :: 't' :: 'p' :: r) = true :=
  isSubstr_of_isPrefixOf (by rw [List.isPrefixOf_iff_prefix]; exact ⟨r, rfl⟩)

theorem upload_in_inserted1 (cloud rest : List Char) :
    isSubstr "/image/upload".toList
      ('/' :: cloud ++ "/image/upload/".toList ++ rest) = true := by
  have h : ('/' :: cloud ++ "/image/upload/".toList ++ rest : List Char) =
      ('/' :: cloud) ++ ("/image/upload".toList ++ ('/' :: rest)) := by
    rw [show ("/image/upload/".toList : List Char) = "/image/upload".toList ++ ['/'] from rfl]
    simp [List.append_assoc]
  rw [h]
  exact isSubstr_append_left (isSubstr_append_right (isSubstr_self _))

theorem upload_in_inserted2 (cloud : List Char) :
    isSubstr "/image/upload".toList ('/' :: cloud ++ "/image/upload".toList) = true :=
  isSubstr_append_left (isSubstr_self _)

theorem cloudRepair_not_cloud {n : List Char} (p : List Char)
    (hh : isSubstr "res.cloudinary.com".toList (n.map Char.toLower) = false) :
    cloudRepair n p = p := by
  rw [cloudRepair, if_neg (by rw [hh]; exact Bool.false_ne_true)]

theorem cloudRepair_some_keep {n p s : List Char}
    (hh : isSubstr "res.cloudinary.com".toList (n.map Char.toLower) = true)
    (hs : suffixFromLastHttp p = some s)
    (hu : isSubstr "/image/upload".toList s = true) :
    cloudRepair n p = s := by
  simp only [cloudRepair]
  rw [if_pos hh, hs]
  rw [if_pos hu]

theorem cloudRepair_some_noupload {n p s : List Char}
    (hh : isSubstr "res.cloudinary.com".toList (n.map Char.toLower) = true)
    (hs : suffixFromLastHttp p = some s)
    (hu : isSubstr "/image/upload".toList s = false) :
    cloudRepair n p = (match splitSlash s with
      | _ :: cloudName :: restComps =>
        if cloudName ≠ [] then
          if joinSlash restComps ≠ [] then
            '/' :: cloudName ++ "/image/upload/".toList ++ joinSlash restComps
          else '/' :: cloudName ++ "/image/upload".toList
        else s
      | _ => s) := by
  simp only [cloudRepair]
  rw [if_pos hh, hs]
  rw [if_neg (by rw [hu]; exact Bool.false_ne_true)]

theorem cloudRepair_none_noupload {n p : List Char}
    (hh : isSubstr "res.cloudinary.com".toList (n.map Char.toLower) = true)
    (hs : suffixFromLastHttp p = none)
    (hu : isSubstr "/image/upload".toList p = false) :
    cloudRepair n p = (match splitSlash p with
      | _ :: cloudName :: restComps =>
        if cloudName ≠ [] then
          if joinSlash restComps ≠ [] then
            '/' :: cloudName ++ "/image/upload/".toList ++ joinSlash restComps
          else '/' :: cloudName ++ "/image/upload".toList
        else p
      | _ => p) := by
  simp only [cloudRepair]
  rw [if_pos hh, hs]
  rw [if_neg (by rw [hu]; exact Bool.false_ne_true)]

theorem pathChar_repaired1 {y rj : List Char}
    (hy : ∀ c ∈ y, pathChar c = true) (hrj : ∀ c ∈ rj, pathChar c = true) :
    ∀ c ∈ ('/' :: y ++ "/image/upload/".toList ++ rj : List Char), pathChar c = true := by
  intro c hc
  rcases List.mem_append.1 hc with hc | hc
  · rcases List.mem_append.1 hc with hc | hc
    · rcases List.mem_cons.1 hc with hc | hc
      · rw [hc]; rfl
      · exact hy c hc
    · exact (by decide : ∀ c ∈ "/image/upload/".toList, pathChar c = true) c hc
  · exact hrj c hc

theorem pathChar_repaired2 {y : List Char}
    (hy : ∀ c ∈ y, pathChar c = true) :
    ∀ c ∈ ('/' :: y ++ "/image/upload".toList : List Char), pathChar c = true := by
  intro c hc
  rcases List.mem_append.1 hc with hc | hc
  · rcases List.mem_cons.1 hc with hc | hc
    · rw [hc]; rfl
    · exact hy c hc
  · exact (by decide : ∀ c ∈ "/image/upload".toList, pathChar c = true) c hc

/-- On a path whose repaired form contains no further `"http"`, the
    Cloudinary path repair preserves the path well-formedness invariants
    and is idempotent. -/
theorem cloudRepair_props (n p : List Char)
    (hp : ∀ c ∈ p, pathChar c = true)
    (hp0 : p = [] ∨ p.head? = some '/')
    (hnores : isSubstr "http".toList (cloudRepair n p) = false) :
    (∀ c ∈ cloudRepair n p, pathChar c = true) ∧
    (cloudRepair n p = [] ∨ (cloudRepair n p).head? = some '/') ∧
    cloudRepair n (cloudRepair n p) = cloudRepair n p := by
  by_cases hh : isSubstr "res.cloudinary.com".toList (n.map Char.toLower) = true
  case neg =>
    rw [Bool.not_eq_true] at hh
    rw [cloudRepair_not_cloud p hh]
    exact ⟨hp, hp0, cloudRepair_not_cloud p hh⟩
  case pos =>
    cases hs : suffixFromLastHttp p with
    | some s =>
      obtain ⟨r0, hr0⟩ := suffixFromLastHttp_shape hs
      have hschars : ∀ c ∈ s, pathChar c = true :=
        fun c hc => hp c (mem_of_suffixFromLastHttp hs hc)
      by_cases hu : isSubstr "/image/upload".toList s = true
      · have hcp : cloudRepair n p = s := cloudRepair_some_keep hh hs hu
        rw [hcp, hr0, isSubstr_http_of_shape] at hnores
        exact Bool.noConfusion hnores
      · rw [Bool.not_eq_true] at hu
        have hcp := cloudRepair_some_noupload hh hs hu
        obtain ⟨x, ss, hsp2⟩ : ∃ x ss, splitSlash s = x :: ss := by
          cases hsr : splitSlash s with
          | nil => exact absurd hsr (splitSlash_ne_nil s)
          | cons x ss => exact ⟨x, ss, rfl⟩
        cases ss with
        | nil =>
          rw [hsp2] at hcp
          dsimp only at hcp
          rw [hcp, hr0, isSubstr_http_of_shape] at hnores
          exact Bool.noConfusion hnores
        | cons y rest2 =>
          rw [hsp2] at hcp
          dsimp only at hcp
          have hychars : ∀ c ∈ y, pathChar c = true := fun c hc =>
            hschars c (mem_splitSlash (hsp2 ▸ List.mem_cons_of_mem x (List.mem_cons_self y rest2)) hc)
          have hrjchars : ∀ c ∈ joinSlash rest2, pathChar c = true := by
            intro c hc
            rcases mem_joinSlash hc with hc | ⟨s2, hs2, hc2⟩
            · rw [hc]; rfl
            · exact hschars c (mem_splitSlash
                (hsp2 ▸ List.mem_cons_of_mem x (List.mem_cons_of_mem y hs2)) hc2)
          by_cases hy : y ≠ []
          · rw [if_pos hy] at hcp
            by_cases hj : joinSlash rest2 ≠ []
            · rw [if_pos hj] at hcp
              rw [hcp] at hnores ⊢
              refine ⟨pathChar_repaired1 hychars hrjchars, Or.inr rfl, ?_⟩
              exact cloudRepair_keep n _ hnores (upload_in_inserted1 y (joinSlash rest2))
            · rw [if_neg hj] at hcp
              rw [hcp] at hnores ⊢
              refine ⟨pathChar_repaired2 hychars, Or.inr rfl, ?_⟩
              exact cloudRepair_keep n _ hnores (upload_in_inserted2 y)
          · rw [if_neg hy] at hcp
            rw [hcp, hr0, isSubstr_http_of_shape] at hnores
            exact Bool.noConfusion hnores
    | none =>
      have hppp : isSubstr "http".toList p = false := no_sub_of_suffix_none hs
      by_cases hu : isSubstr "/image/upload".toList p = true
      · have hcp : cloudRepair n p = p := cloudRepair_keep n p hppp hu
        rw [hcp]
        exact ⟨hp, hp0, hcp⟩
      · rw [Bool.not_eq_true] at hu
        have hcp := cloudRepair_none_noupload hh hs hu
        obtain ⟨x, ss, hsp2⟩ : ∃ x ss, splitSlash p = x :: ss := by
          cases hsr : splitSlash p with
          | nil => exact absurd hsr (splitSlash_ne_nil p)
          | cons x ss => exact ⟨x, ss, rfl⟩
        cases ss with
        | nil =>
          rw [hsp2] at hcp
          dsimp only at hcp
          rw [hcp]
          exact ⟨hp, hp0, hcp⟩
        | cons y rest2 =>
          rw [hsp2] at hcp
          dsimp only at hcp
          have hychars : ∀ c ∈ y, pathChar c = true := fun c hc =>
            hp c (mem_splitSlash (hsp2 ▸ List.mem_cons_of_mem x (List.mem_cons_self y rest2)) hc)
          have hrjchars : ∀ c ∈ joinSlash rest2, pathChar c = true := by
            intro c hc
            rcases mem_joinSlash hc with hc | ⟨s2, hs2, hc2⟩
            · rw [hc]; rfl
            · exact hp c (mem_splitSlash
                (hsp2 ▸ List.mem_cons_of_mem x (List.mem_cons_of_mem y hs2)) hc2)
          by_cases hy : y ≠ []
          · rw [if_pos hy] at hcp
            by_cases hj : joinSlash rest2 ≠ []
            · rw [if_pos hj] at hcp
              rw [hcp] at hnores ⊢
              refine ⟨pathChar_repaired1 hychars hrjchars, Or.inr rfl, ?_⟩
              exact cloudRepair_keep n _ hnores (upload_in_inserted1 y (joinSlash rest2))
            · rw [if_neg hj] at hcp
              rw [hcp] at hnores ⊢
              refine ⟨pathChar_repaired2 hychars, Or.inr rfl, ?_⟩
              exact cloudRepair_keep n _ hnores (upload_in_inserted2 y)
          · rw [if_neg hy] at hcp
            rw [hcp]
            exact ⟨hp, hp0, hcp⟩

theorem mem_of_head? {l : List Char} {c : Char} (h : l.head? = some c) : c ∈ l := by
  cases l with
  | nil => cases h
  | cons a t =>
    injection h with h
    rw [h]
    exact List.mem_cons_self _ _

theorem head_of_takeWhile {p : Char → Bool} {l : List Char} {c : Char}
    (h : (l.takeWhile p).head? = some c) : l.head? = some c ∧ p c = true := by
  cases l with
  | nil => cases h
  | cons a t =>
    rw [List.takeWhile_cons] at h
    by_cases hp : p a = true
    · rw [if_pos hp] at h
      injection h with h
      subst h
      exact ⟨rfl, hp⟩
    · rw [if_neg hp] at h
      cases h

theorem notDelim_false_cases {c : Char} (h : notDelim c = false) :
    c = '/' ∨ c = '?' ∨ c = '#' := by
  by_contra hc
  push_neg at hc
  simp [notDelim, hc.1, hc.2.1, hc.2.2] at h

theorem head?_none_nil {l : List Char} (h : l.head? = none) : l = [] := by
  cases l with
  | nil => rfl
  | cons a t => cases h

theorem pathChar_build {c : Char} (h1 : c ≠ '?') (h2 : c ≠ '#')
    (h3 : isUnsafeChar c = false) : pathChar c = true := by
  simp [pathChar, h1, h2, h3]

theorem queryChar_build {c : Char} (h1 : c ≠ '#')
    (h2 : isUnsafeChar c = false) : queryChar c = true := by
  simp [queryChar, h1, h2]

theorem fragChar_build {c : Char} (h : isUnsafeChar c = false) : fragChar c = true := by
  simp [fragChar, h]

theorem netChar_build {c : Char} (h1 : notDelim c = true) (h2 : isUnsafeChar c = false)
    (h3 : ¬ c = '[') (h4 : ¬ c = ']') (h5 : c.toNat < 128) : netChar c = true := by
  simp [netChar, h1, h2, h3, h4, h5]

/-- The authority component that `urlsplit` cuts out of an unsafe-free
    value satisfies the authority character invariant. -/
theorem netloc_facts {t2 : List Char}
    (hun : ∀ c ∈ t2, isUnsafeChar c = false)
    (hok : netlocOk (t2.takeWhile notDelim) = true) :
    ∀ c ∈ t2.takeWhile notDelim, netChar c = true := by
  intro c hc
  have hdelim : notDelim c = true := List.mem_takeWhile_imp hc
  have hmem : c ∈ t2 := (List.takeWhile_sublist _).subset hc
  have huns : isUnsafeChar c = false := hun c hmem
  rw [netlocOk] at hok
  have hbr := List.all_eq_true.1 hok c hc
  simp only [Bool.and_eq_true, decide_eq_true_eq, ne_eq] at hbr
  exact netChar_build hdelim huns hbr.1.1 hbr.1.2 hbr.2

/-- The path/query/fragment components that `urlsplit` cuts out of the
    delimiter-headed remainder satisfy the component invariants. -/
theorem split_rest_facts (rest rest2 path query frag : List Char)
    (hun : ∀ c ∈ rest, isUnsafeChar c = false)
    (h0 : ∀ c, rest.head? = some c → notDelim c = false)
    (hrest2 : rest2 = if rest.contains '#' then rest.takeWhile (fun c => c ≠ '#') else rest)
    (hfrag : frag = if rest.contains '#' then (rest.dropWhile (fun c => c ≠ '#')).drop 1 else [])
    (hquery : query =
      if rest2.contains '?' then (rest2.dropWhile (fun c => c ≠ '?')).drop 1 else [])
    (hpath : path = if rest2.contains '?' then rest2.takeWhile (fun c => c ≠ '?') else rest2) :
    (path = [] ∨ path.head? = some '/') ∧
    (∀ c ∈ path, pathChar c = true) ∧
    (∀ c ∈ query, queryChar c = true) ∧
    (∀ c ∈ frag, fragChar c = true) := by
  have hr2sub : ∀ c ∈ rest2, c ∈ rest := by
    intro c hc
    rw [hrest2] at hc
    by_cases hcf : rest.contains '#' = true
    · rw [if_pos hcf] at hc
      exact (List.takeWhile_sublist _).subset hc
    · rw [if_neg hcf] at hc
      exact hc
  have hr2nohash : ∀ c ∈ rest2, c ≠ '#' := by
    intro c hc
    rw [hrest2] at hc
    by_cases hcf : rest.contains '#' = true
    · rw [if_pos hcf] at hc
      have h2 := List.mem_takeWhile_imp hc
      simpa using h2
    · rw [if_neg hcf] at hc
      intro he
      rw [he] at hc
      exact hcf (contains_true_of_mem hc)
  have hr2head : ∀ c, rest2.head? = some c → notDelim c = false := by
    intro c hc
    rw [hrest2] at hc
    by_cases hcf : rest.contains '#' = true
    · rw [if_pos hcf] at hc
      exact h0 c (head_of_takeWhile hc).1
    · rw [if_neg hcf] at hc
      exact h0 c hc
  have hpsub : ∀ c ∈ path, c ∈ rest2 := by
    intro c hc
    rw [hpath] at hc
    by_cases hcq : rest2.contains '?' = true
    · rw [if_pos hcq] at hc
      exact (List.takeWhile_sublist _).subset hc
    · rw [if_neg hcq] at hc
      exact hc
  have hpnoq : ∀ c ∈ path, c ≠ '?' := by
    intro c hc
    rw [hpath] at hc
    by_cases hcq : rest2.contains '?' = true
    · rw [if_pos hcq] at hc
      have h2 := List.mem_takeWhile_imp hc
      simpa using h2
    · rw [if_neg hcq] at hc
      intro he
      rw [he] at hc
      exact hcq (contains_true_of_mem hc)
  refine ⟨?_, ?_, ?_, ?_⟩
  · cases hph : path.head? with
    | none => exact Or.inl (head?_none_nil hph)
    | some c =>
      refine Or.inr ?_
      have hcp : c ∈ path := mem_of_head? hph
      have hc2 : c ∈ rest2 := hpsub c hcp
      have hnd : notDelim c = false := by
        rw [hpath] at hph
        by_cases hcq : rest2.contains '?' = true
        · rw [if_pos hcq] at hph
          exact hr2head c (head_of_takeWhile hph).1
        · rw [if_neg hcq] at hph
          exact hr2head c hph
      rcases notDelim_false_cases hnd with he | he | he
      · rw [he]
      · exact absurd he (hpnoq c hcp)
      · exact absurd he (hr2nohash c hc2)
  · intro c hc
    exact pathChar_build (hpnoq c hc) (hr2nohash c (hpsub c hc))
      (hun c (hr2sub c (hpsub c hc)))
  · intro c hc
    rw [hquery] at hc
    by_cases hcq : rest2.contains '?' = true
    · rw [if_pos hcq] at hc
      have hc2 : c ∈ rest2 := (List.dropWhile_sublist _).subset (List.drop_subset _ _ hc)
      exact queryChar_build (hr2nohash c hc2) (hun c (hr2sub c hc2))
    · rw [if_neg hcq] at hc
      cases hc
  · intro c hc
    rw [hfrag] at hc
    by_cases hcf : rest.contains '#' = true
    · rw [if_pos hcf] at hc
      have hc2 : c ∈ rest := (List.dropWhile_sublist _).subset (List.drop_subset _ _ hc)
      exact fragChar_build (hun c hc2)
    · rw [if_neg hcf] at hc
      cases hc

/-- The components `urlsplit` recovers from an `https://`-prefixed value
    satisfy the well-formedness invariants that `urlunsplit` inverts. -/
theorem urlsplit_https_inv {t : List Char} {parts : UrlParts}
    (h : urlsplit ("https://".toList ++ t) = .ok parts) :
    parts.scheme = "https".toList ∧
    (∀ c ∈ parts.netloc, netChar c = true) ∧
    (parts.path = [] ∨ parts.path.head? = some '/') ∧
    (∀ c ∈ parts.path, pathChar c = true) ∧
    (∀ c ∈ parts.query, queryChar c = true) ∧
    (∀ c ∈ parts.fragment, fragChar c = true) := by
  have hclean : removeUnsafe ("https://".toList ++ t) =
      "https://".toList ++ removeUnsafe t := by
    rw [removeUnsafe, removeUnsafe, List.filter_append]
    rw [show ("https://".toList).filter (fun c => !isUnsafeChar c) = "https://".toList from rfl]
  have hun : ∀ c ∈ removeUnsafe t, isUnsafeChar c = false := by
    intro c hc
    rw [removeUnsafe] at hc
    have h2 := List.mem_filter.1 hc
    simpa [Bool.not_eq_true'] using h2.2
  rw [urlsplit, hclean] at h
  rw [show splitScheme ("https://".toList ++ removeUnsafe t) =
      ("https".toList, '/' :: '/' :: removeUnsafe t) from rfl] at h
  dsimp only at h
  rw [show ('/' :: '/' :: removeUnsafe t).take 2 = "//".toList from rfl] at h
  rw [show ('/' :: '/' :: removeUnsafe t).drop 2 = removeUnsafe t from rfl] at h
  rw [if_pos rfl] at h
  rw [if_pos rfl] at h
  by_cases hok : netlocOk ((removeUnsafe t).takeWhile notDelim) = true
  case neg =>
    rw [if_neg hok] at h
    exact Except.noConfusion h
  case pos =>
    rw [if_pos hok] at h
    injection h with h
    rw [← h]
    have hfacts := split_rest_facts ((removeUnsafe t).dropWhile notDelim) _ _ _ _
      (fun c hc => hun c ((List.dropWhile_sublist _).subset hc))
      (fun c hc => head_dropWhile_false hc)
      rfl rfl rfl rfl
    exact ⟨rfl, netloc_facts hun hok, hfacts.1, hfacts.2.1, hfacts.2.2.1, hfacts.2.2.2⟩

/-- As `urlsplit_https_inv`, for an `http://`-prefixed value. -/
theorem urlsplit_http_inv {t : List Char} {parts : UrlParts}
    (h : urlsplit ("http://".toList ++ t) = .ok parts) :
    parts.scheme = "http".toList ∧
    (∀ c ∈ parts.netloc, netChar c = true) ∧
    (parts.path = [] ∨ parts.path.head? = some '/') ∧
    (∀ c ∈ parts.path, pathChar c = true) ∧
    (∀ c ∈ parts.query, queryChar c = true) ∧
    (∀ c ∈ parts.fragment, fragChar c = true) := by
  have hclean : removeUnsafe ("http://".toList ++ t) =
      "http://".toList ++ removeUnsafe t := by
    rw [removeUnsafe, removeUnsafe, List.filter_append]
    rw [show ("http://".toList).filter (fun c => !isUnsafeChar c) = "http://".toList from rfl]
  have hun : ∀ c ∈ removeUnsafe t, isUnsafeChar c = false := by
    intro c hc
    rw [removeUnsafe] at hc
    have h2 := List.mem_filter.1 hc
    simpa [Bool.not_eq_true'] using h2.2
  rw [urlsplit, hclean] at h
  rw [show splitScheme ("http://".toList ++ removeUnsafe t) =
      ("http".toList, '/' :: '/' :: removeUnsafe t) from rfl] at h
  dsimp only at h
  rw [show ('/' :: '/' :: removeUnsafe t).take 2 = "//".toList from rfl] at h
  rw [show ('/' :: '/' :: removeUnsafe t).drop 2 = removeUnsafe t from rfl] at h
  rw [if_pos rfl] at h
  rw [if_pos rfl] at h
  by_cases hok : netlocOk ((removeUnsafe t).takeWhile notDelim) = true
  case neg =>
    rw [if_neg hok] at h
    exact Except.noConfusion h
  case pos =>
    rw [if_pos hok] at h
    injection h with h
    rw [← h]
    have hfacts := split_rest_facts ((removeUnsafe t).dropWhile notDelim) _ _ _ _
      (fun c hc => hun c ((List.dropWhile_sublist _).subset hc))
      (fun c hc => head_dropWhile_false hc)
      rfl rfl rfl rfl
    exact ⟨rfl, netloc_facts hun hok, hfacts.1, hfacts.2.1, hfacts.2.2.1, hfacts.2.2.2⟩

theorem isSubstr_in_netpath {n Z : List Char} (h : isSubstr "http".toList Z = true) :
    isSubstr "http".toList (n ++ ('/' :: Z)) = true := by
  apply isSubstr_append_left
  rw [isSubstr, h, Bool.or_true]

theorem count_contra_helper (X : List Char) {u : List Char}
    (hu2 : u = "https".toList ++ (':' :: ("//".toList ++ X)))
    (hcount : countHttp u = 1)
    (hsub : isSubstr "http".toList X = true) : False := by
  rw [hu2] at hcount
  rw [show countHttp ("https".toList ++ (':' :: ("//".toList ++ X))) =
    countHttp X + 1 from rfl] at hcount
  have h0 : countHttp X = 0 := by omega
  rw [no_sub_of_countHttp_zero h0] at hsub
  exact Bool.noConfusion hsub

/-- When the URL assembled by `urlunsplit` contains a single `"http"`
    occurrence — its scheme — the path component contains none. -/
theorem no_http_in_path_of_count {n p2 q f u : List Char} (hnn : n ≠ [])
    (hu : urlunsplit ⟨"https".toList, n, p2, q, f⟩ = u)
    (hcount : countHttp u = 1) :
    isSubstr "http".toList p2 = false := by
  cases hb : isSubstr "http".toList p2 with
  | false => rfl
  | true =>
    exfalso
    simp only [urlunsplit] at hu
    rw [if_pos (Or.inl hnn)] at hu
    rw [if_pos (by decide : ("https".toList : List Char) ≠ [])] at hu
    by_cases h2 : p2 ≠ [] ∧ p2.take 1 ≠ "/".toList
    · rw [if_pos h2] at hu
      by_cases hq0 : q ≠ []
      · rw [if_pos hq0] at hu
        by_cases hf0 : f ≠ []
        · rw [if_pos hf0] at hu
          exact count_contra_helper (n ++ ('/' :: (p2 ++ ('?' :: (q ++ ('#' :: f))))))
            (by rw [← hu]; simp only [List.append_assoc, List.cons_append]) hcount
            (isSubstr_in_netpath (isSubstr_append_right hb))
        · rw [if_neg hf0] at hu
          exact count_contra_helper (n ++ ('/' :: (p2 ++ ('?' :: q))))
            (by rw [← hu]; simp only [List.append_assoc, List.cons_append]) hcount
            (isSubstr_in_netpath (isSubstr_append_right hb))
      · rw [if_neg hq0] at hu
        by_cases hf0 : f ≠ []
        · rw [if_pos hf0] at hu
          exact count_contra_helper (n ++ ('/' :: (p2 ++ ('#' :: f))))
            (by rw [← hu]; simp only [List.append_assoc, List.cons_append]) hcount
            (isSubstr_in_netpath (isSubstr_append_right hb))
        · rw [if_neg hf0] at hu
          exact count_contra_helper (n ++ ('/' :: p2))
            (by rw [← hu]; simp only [List.append_assoc, List.cons_append]) hcount
            (isSubstr_in_netpath hb)
    · rw [if_neg h2] at hu
      by_cases hq0 : q ≠ []
      · rw [if_pos hq0] at hu
        by_cases hf0 : f ≠ []
        · rw [if_pos hf0] at hu
          exact count_contra_helper (n ++ (p2 ++ ('?' :: (q ++ ('#' :: f)))))
            (by rw [← hu]; simp only [List.append_assoc, List.cons_append]) hcount
            (isSubstr_append_left (isSubstr_append_right hb))
        · rw [if_neg hf0] at hu
          exact count_contra_helper (n ++ (p2 ++ ('?' :: q)))
            (by rw [← hu]; simp only [List.append_assoc, List.cons_append]) hcount
            (isSubstr_append_left (isSubstr_append_right hb))
      · rw [if_neg hq0] at hu
        by_cases hf0 : f ≠ []
        · rw [if_pos hf0] at hu
          exact count_contra_helper (n ++ (p2 ++ ('#' :: f)))
            (by rw [← hu]; simp only [List.append_assoc, List.cons_append]) hcount
            (isSubstr_append_left (isSubstr_append_right hb))
        · rw [if_neg hf0] at hu
          exact count_contra_helper (n ++ p2)
            (by rw [← hu]; simp only [List.append_assoc, List.cons_append]) hcount
            (isSubstr_append_left hb)

/-- The normalizer returns unchanged any value it could itself have
    produced: an assembled https URL with a nonempty well-formed
    authority, no percent escape, a single `"http"` occurrence and no
    trailing whitespace. -/
theorem normalize_fixed_point {u n p q f : List Char}
    (hnn : n ≠ [])
    (hninv : ∀ c ∈ n, netChar c = true)
    (hp0 : p = [] ∨ p.head? = some '/')
    (hpinv : ∀ c ∈ p, pathChar c = true)
    (hqinv : ∀ c ∈ q, queryChar c = true)
    (hfinv : ∀ c ∈ f, fragChar c = true)
    (hu : urlunsplit ⟨"https".toList, n, cloudRepair n p, q, f⟩ = u)
    (hpct : '%' ∉ u)
    (hcount : countHttp u = 1)
    (hlast : ∀ c, u.getLast? = some c → isWs c = false) :
    normalize_candidate u = .ok (some u) := by
  have hnores : isSubstr "http".toList (cloudRepair n p) = false :=
    no_http_in_path_of_count hnn hu hcount
  obtain ⟨hp2chars, hp20, hidem⟩ := cloudRepair_props n p hpinv hp0 hnores
  have huU : u = "https://".toList ++ (n ++ (cloudRepair n p ++
      ((if q = [] then [] else '?' :: q) ++ (if f = [] then [] else '#' :: f)))) := by
    rw [← hu]
    exact urlunsplit_https n (cloudRepair n p) q f hnn hp20
  have hcT : countHttp (n ++ (cloudRepair n p ++
      ((if q = [] then [] else '?' :: q) ++ (if f = [] then [] else '#' :: f)))) = 0 := by
    rw [huU] at hcount
    rw [show countHttp ("https://".toList ++ (n ++ (cloudRepair n p ++
        ((if q = [] then [] else '?' :: q) ++ (if f = [] then [] else '#' :: f))))) =
        countHttp (n ++ (cloudRepair n p ++
        ((if q = [] then [] else '?' :: q) ++ (if f = [] then [] else '#' :: f)))) + 1
      from rfl] at hcount
    omega
  have hpT : '%' ∉ (n ++ (cloudRepair n p ++
      ((if q = [] then [] else '?' :: q) ++ (if f = [] then [] else '#' :: f)))) := by
    intro hm
    rw [huU] at hpct
    exact hpct (List.mem_append.2 (Or.inr hm))
  have hlT : ∀ c, (n ++ (cloudRepair n p ++
      ((if q = [] then [] else '?' :: q) ++
        (if f = [] then [] else '#' :: f)))).getLast? = some c → isWs c = false := by
    intro c hc
    apply hlast c
    rw [huU, List.getLast?_append, hc]
    rfl
  rw [huU]
  have hne : ("https://".toList ++ (n ++ (cloudRepair n p ++
      ((if q = [] then [] else '?' :: q) ++ (if f = [] then [] else '#' :: f))))) ≠ [] :=
    fun hcon => List.noConfusion (show ('h' :: ("ttps://".toList ++ (n ++ (cloudRepair n p ++
      ((if q = [] then [] else '?' :: q) ++ (if f = [] then [] else '#' :: f)))))) =
      ([] : List Char) from hcon)
  rw [normalize_candidate, if_neg hne]
  rw [preprocess_https_noop _ hcT hpT hlT]
  rw [if_pos (isAbs_https _)]
  rw [urlsplit_assembled n (cloudRepair n p) q f hninv hp20 hp2chars hqinv hfinv]
  dsimp only
  rw [if_neg (by decide : ¬ (("https".toList : List Char) = "http".toList))]
  rw [hidem]
  rw [urlunsplit_https n (cloudRepair n p) q f hnn hp20]

/-- C2 (amended): the normalizer is idempotent on its own successful
    outputs whose parse had a nonempty authority, provided the output
    string contains no percent escape, contains `"http"` only once (as
    its scheme), and does not end in whitespace: normalizing such an
    output again succeeds and returns it unchanged.  The restrictions
    are necessary: `normalize("http://") = "https:"`, which renormalizes
    to `None` (see the C2 counterexample). -/
theorem C2_idempotent (s u : List Char) (parts : UrlParts)
    (hsp : urlsplit (preprocess s) = .ok parts)
    (hnn : parts.netloc ≠ [])
    (hsu : normalize_candidate s = .ok (some u))
    (hpct : '%' ∉ u)
    (hcount : countHttp u = 1)
    (hlast : ∀ c, u.getLast? = some c → isWs c = false) :
    normalize_candidate u = .ok (some u) := by
  rw [normalize_candidate] at hsu
  by_cases hs0 : s = []
  · rw [if_pos hs0] at hsu
    exact absurd hsu (by simp)
  rw [if_neg hs0] at hsu
  by_cases habs : isAbs (preprocess s) = true
  case neg =>
    rw [Bool.not_eq_true] at habs
    rw [if_neg (by rw [habs]; exact Bool.false_ne_true)] at hsu
    exact absurd hsu (by simp)
  case pos =>
    rw [if_pos habs, hsp] at hsu
    dsimp only at hsu
    have hu := Option.some.inj (Except.ok.inj hsu)
    rw [isAbs, Bool.or_eq_true] at habs
    rcases habs with hpre | hpre
    · obtain ⟨t, ht⟩ := List.isPrefixOf_iff_prefix.1 hpre
      rw [← ht] at hsp
      obtain ⟨hsch, hninv, hp0, hpinv, hqinv, hfinv⟩ := urlsplit_http_inv hsp
      rw [hsch] at hu
      rw [if_pos rfl] at hu
      exact normalize_fixed_point hnn hninv hp0 hpinv hqinv hfinv hu hpct hcount hlast
    · obtain ⟨t, ht⟩ := List.isPrefixOf_iff_prefix.1 hpre
      rw [← ht] at hsp
      obtain ⟨hsch, hninv, hp0, hpinv, hqinv, hfinv⟩ := urlsplit_https_inv hsp
      rw [hsch] at hu
      rw [if_neg (by decide : ¬ (("https".toList : List Char) = "http".toList))] at hu
      exact normalize_fixed_point hnn hninv hp0 hpinv hqinv hfinv hu hpct hcount hlast

/-- Witness: the amended C2 theorem at the concrete normalization of
    `http://res.cloudinary.com/demo/image/upload/x.jpg`. -/
theorem C2_witness :
    normalize_candidate "https://res.cloudinary.com/demo/image/upload/x.jpg".toList =
      .ok (some "https://res.cloudinary.com/demo/image/upload/x.jpg".toList) :=
  C2_idempotent "http://res.cloudinary.com/demo/image/upload/x.jpg".toList
    "https://res.cloudinary.com/demo/image/upload/x.jpg".toList
    ⟨"http".toList, "res.cloudinary.com".toList, "/demo/image/upload/x.jpg".toList, [], []⟩
    rfl (by decide) rfl (by decide) rfl
    (fun c h => by injection h with h; rw [← h]; rfl)

end FutoMedia
